import Mathlib

/-!
# Enhance-Logs: the filter pipeline of `main.go`

A shallow embedding of `LogFilter.Run`, `parseLogEntry` and `printColoredLog`
together with the library routines they call.

Modelling conventions.

* Go strings are modelled as lists of Unicode code points (`Str`), that is,
  valid UTF-8 text.
* Standard output is a list of print events (`Out`); a coloured print keeps
  its colour attribute instead of the escape sequence.
* The log file, the raw sink (`apiresponse.log`) and the JSON sink are three
  different files.  A file that cannot be opened is `none`; otherwise it
  holds its content.  Writes and flushes succeed.
* `time.Now()` is a sequence of readings, one per call.
* An index or slice out of range is the result `none` of the routine that
  performs it, and `Outcome.panicked` of `Run`.  The content of the sinks
  after a panic is not modelled.
-/

namespace EnhanceLogs

/-- Text: a Go string, as its sequence of code points. -/
abbrev Str := List Char

/-! ## Library routines: package `strings` and `unicode` -/

/-- Go `unicode.IsSpace`: the code points with the White_Space property. -/
def isSpace (c : Char) : Bool :=
  let n := c.toNat
  (decide (9 ≤ n) && decide (n ≤ 13)) || n == 0x20 || n == 0x85 || n == 0xA0 ||
    n == 0x1680 || (decide (0x2000 ≤ n) && decide (n ≤ 0x200A)) || n == 0x2028 ||
    n == 0x2029 || n == 0x202F || n == 0x205F || n == 0x3000

/-- Scan of `strings.Fields`: `cur` is the field being read, reversed
(empty when no field is open). -/
def fieldsAux : Str → Str → List Str
  | cur, [] => if cur = [] then [] else [cur.reverse]
  | cur, c :: rest =>
    if isSpace c then
      (if cur = [] then fieldsAux [] rest else cur.reverse :: fieldsAux [] rest)
    else fieldsAux (c :: cur) rest

/-- Go `strings.Fields`: the maximal runs of non-space code points. -/
def Fields (s : Str) : List Str := fieldsAux [] s

/-- Go `strings.HasPrefix`. -/
def HasPrefix : Str → Str → Bool
  | _, [] => true
  | [], _ :: _ => false
  | c :: s, d :: p => c == d && HasPrefix s p

/-- Go `strings.Contains`: `substr` occurs in `s` at some offset. -/
def Contains : Str → Str → Bool
  | [], substr => HasPrefix [] substr
  | c :: s, substr => HasPrefix (c :: s) substr || Contains s substr

/-- Go `strings.Join`. -/
def Join (elems : List Str) (sep : Str) : Str := List.intercalate sep elems

/-- Go `unicode.ToUpper`, as far as comparisons with ASCII text can observe
it: the code points whose upper case is an ASCII letter are `a`..`z`,
U+0131 (upper case `I`) and U+017F (upper case `S`).  Every other code point
has an upper case outside ASCII or is its own upper case, and is left as is. -/
def toUpperRune (c : Char) : Char :=
  if 97 ≤ c.toNat ∧ c.toNat ≤ 122 then Char.ofNat (c.toNat - 32)
  else if c.toNat = 0x131 then 'I'
  else if c.toNat = 0x17F then 'S'
  else c

/-- Go `strings.ToUpper`. -/
def ToUpper (s : Str) : Str := s.map toUpperRune

/-- Go slice expression `xs[lo:]`, `none` when out of range. -/
def sliceFrom {α : Type} (xs : List α) (lo : Nat) : Option (List α) :=
  if lo ≤ xs.length then some (xs.drop lo) else none

/-- Go slice expression `xs[lo:hi]`, `none` when out of range. -/
def slice {α : Type} (xs : List α) (lo hi : Nat) : Option (List α) :=
  if lo ≤ hi ∧ hi ≤ xs.length then some ((xs.drop lo).take (hi - lo)) else none

/-! ## Library routines: package `color` and standard output -/

/-- The colour attributes of `github.com/fatih/color` used by the program. -/
inductive Attribute
  | FgWhite
  | FgHiBlack
  | FgHiRed
  | FgHiGreen
  | FgHiWhite
  deriving DecidableEq, Repr

/-- One write to standard output. -/
inductive Out
  | colored (a : Attribute) (text : Str)
  | plain (text : Str)
  deriving DecidableEq, Repr

/-! ## Library routines: package `time` -/

/-- A wall-clock reading, in calendar fields. -/
structure Instant where
  year : Nat
  month : Nat
  day : Nat
  hour : Nat
  minute : Nat
  second : Nat
  deriving DecidableEq, Repr

/-- Decimal digit character. -/
def digit (n : Nat) : Char := Char.ofNat (48 + n % 10)

/-- Go `time.appendInt`: `x` in decimal, zero-padded to `width`. -/
def appendInt (x width : Nat) : Str :=
  if width = 2 ∧ x < 100 then [digit (x / 10), digit x]
  else if width = 4 ∧ x < 10000 then
    [digit (x / 1000), digit (x / 100), digit (x / 10), digit x]
  else
    let ds := Nat.toDigits 10 x
    List.replicate (width - ds.length) '0' ++ ds

/-- Go `t.Format("2006-01-02 15:04:05")`. -/
def Format (t : Instant) : Str :=
  appendInt t.year 4 ++ '-' :: appendInt t.month 2 ++ '-' :: appendInt t.day 2 ++
    ' ' :: appendInt t.hour 2 ++ ':' :: appendInt t.minute 2 ++ ':' :: appendInt t.second 2

/-! ## Library routines: package `encoding/json` -/

/-- Lower-case hexadecimal digit. -/
def hexDigit (n : Nat) : Char :=
  if n % 16 < 10 then Char.ofNat (48 + n % 16) else Char.ofNat (87 + n % 16)

/-- The bytes `encoding/json` writes for one code point of a string, with
HTML escaping on as in `json.Marshal`. -/
def escapeRune (c : Char) : Str :=
  let n := c.toNat
  if n < 0x80 then
    if 0x20 ≤ n ∧ n ≠ 0x22 ∧ n ≠ 0x5C ∧ n ≠ 0x3C ∧ n ≠ 0x3E ∧ n ≠ 0x26 then [c]
    else if n = 0x5C ∨ n = 0x22 then ['\x5c', c]
    else if n = 0x08 then ['\x5c', 'b']
    else if n = 0x0C then ['\x5c', 'f']
    else if n = 0x0A then ['\x5c', 'n']
    else if n = 0x0D then ['\x5c', 'r']
    else if n = 0x09 then ['\x5c', 't']
    else ['\x5c', 'u', '0', '0', hexDigit (n / 16), hexDigit n]
  else if n = 0x2028 ∨ n = 0x2029 then ['\x5c', 'u', '2', '0', '2', hexDigit n]
  else [c]

/-- The JSON string literal `encoding/json` writes for a Go string. -/
def encodeString (s : Str) : Str :=
  '\x22' :: (s.flatMap escapeRune ++ ['\x22'])

/-! ## The program -/

/-- Source type `LogEntry`. -/
structure LogEntry where
  Date : Str
  Time : Str
  Keyword : Str
  Message : Str
  deriving DecidableEq, Repr

/-- Source type `LogFilter`. -/
structure LogFilter where
  LogLevel : Str
  CustomKeyword : Str
  LogFilePath : Str
  ServerAPI : Bool
  APIResponsePath : Str
  JSONFilePath : Str
  deriving DecidableEq, Repr

/-- Source function `NewLogFilter`. -/
def NewLogFilter : LogFilter :=
  { LogLevel := [], CustomKeyword := [], LogFilePath := "sample.log".toList,
    ServerAPI := false, APIResponsePath := "apiresponse.log".toList,
    JSONFilePath := "apiresponse.json".toList }

/-- Go `json.Marshal` of a `LogEntry`: the fields in declaration order under
the keys of their struct tags. -/
def Marshal (e : LogEntry) : Str :=
  '\x7b' :: (encodeString "date".toList ++ ':' :: encodeString e.Date ++
    ',' :: encodeString "time".toList ++ ':' :: encodeString e.Time ++
    ',' :: encodeString "keyword".toList ++ ':' :: encodeString e.Keyword ++
    ',' :: encodeString "message".toList ++ ':' :: encodeString e.Message ++ ['\x7d'])

/-- Source function `parseLogEntry`; `now` is the reading `time.Now()`
returns.  `none` is an index or slice out of range. -/
def parseLogEntry (now : Instant) (logEntry : Str) : Option LogEntry := do
  let parts := Fields logEntry
  let dateTime := Format now
  let date ← slice dateTime 0 10
  let time ← slice dateTime 11 19
  let keyword ← parts[2]?
  let message ← sliceFrom parts 3
  pure { Date := date, Time := time, Keyword := keyword, Message := Join message [' '] }

/-- Source function `printColoredLog`: the writes to standard output, in
order.  `none` is an index out of range (nothing has been written then, the
first access is `parts[2]` in the switch header). -/
def printColoredLog (logEntry : Str) : Option (List Out) := do
  let parts := Fields logEntry
  let tag ← parts[2]?
  if ToUpper tag = "WARNING".toList then
    let p0 ← parts[0]?
    let p1 ← parts[1]?
    let p2 ← parts[2]?
    let msg ← sliceFrom parts 3
    pure [Out.colored .FgHiRed p0, Out.plain [' '], Out.colored .FgHiBlack p1, Out.plain [' '],
      Out.colored .FgHiRed p2, Out.plain [' '], Out.colored .FgWhite (Join msg [' ']),
      Out.plain ['\n']]
  else if ToUpper tag = "TRACE".toList then
    let p0 ← parts[0]?
    let p1 ← parts[1]?
    let p2 ← parts[2]?
    let msg ← sliceFrom parts 3
    pure [Out.colored .FgHiRed p0, Out.plain [' '], Out.colored .FgHiBlack p1, Out.plain [' '],
      Out.colored .FgHiWhite p2, Out.plain [' '], Out.colored .FgWhite (Join msg [' ']),
      Out.plain ['\n']]
  else
    let p0 ← parts[0]?
    let p1 ← parts[1]?
    let p2 ← parts[2]?
    let msg ← sliceFrom parts 3
    pure [Out.colored .FgHiRed p0, Out.plain [' '], Out.colored .FgHiBlack p1, Out.plain [' '],
      Out.colored .FgHiGreen p2, Out.plain [' '], Out.colored .FgWhite (Join msg [' ']),
      Out.plain ['\n']]

/-! ### Reading the log file -/

/-- How a stream ends: end of file, or a read fault. -/
inductive ReadErr
  | EOF
  | Fault
  deriving DecidableEq, Repr

/-- A `bufio.Reader` over the log file: the code points the file still
delivers, and how the stream ends after them. -/
structure Reader where
  pending : Str
  ending : ReadErr
  deriving DecidableEq, Repr

/-- Split at the first `delim`: the text up to and including it, and the
rest.  `none` when `delim` does not occur. -/
def splitDelim (delim : Char) : Str → Option (Str × Str)
  | [] => none
  | c :: rest =>
    if c = delim then some ([c], rest)
    else match splitDelim delim rest with
      | none => none
      | some (line, rest2) => some (c :: line, rest2)

/-- Go `(*bufio.Reader).ReadString`: the text up to and including the first
`delim`; when the stream ends first, the text read so far and the error. -/
def ReadString (r : Reader) (delim : Char) : Str × Option ReadErr × Reader :=
  match splitDelim delim r.pending with
  | some (line, rest) => (line, none, { r with pending := rest })
  | none => (r.pending, some r.ending, { r with pending := [] })

/-! ### The scan loops and `Run` -/

/-- The errors `Run` returns. -/
inductive RunError
  | openLogFile
  | openAPIResponse
  | createJSONFile
  deriving DecidableEq, Repr

/-- The local state of the dual-sink loop: what has been printed, the two
buffered writers, the flag `firstEntry`, and the number of calls of
`time.Now()` made so far. -/
structure DualState where
  stdout : List Out
  apiResponseWriter : Str
  jsonWriter : Str
  firstEntry : Bool
  ticks : Nat
  deriving DecidableEq, Repr

/-- Result of a scan loop or of one pass of its body. -/
inductive Scan (σ : Type)
  | running (st : σ)
  | panicked (stdout : List Out)
  deriving DecidableEq, Repr

/-- Body of the dual-sink loop (source lines 94 to 109) for a line `s` that
was read without error. -/
def dualStep (lf : LogFilter) (now : Nat → Instant) (st : DualState) (s : Str) :
    Scan DualState :=
  if (lf.LogLevel = [] ∨ Contains s lf.LogLevel = true) ∧
      (lf.CustomKeyword = [] ∨ Contains s lf.CustomKeyword = true) then
    match printColoredLog s with
    | none => .panicked st.stdout
    | some out =>
      match parseLogEntry (now st.ticks) s with
      | none => .panicked (st.stdout ++ out)
      | some logEntry =>
        let jsonWriter :=
          if !st.firstEntry then st.jsonWriter ++ [',', '\n'] else st.jsonWriter
        .running
          { stdout := st.stdout ++ out
            apiResponseWriter := st.apiResponseWriter ++ s
            jsonWriter := jsonWriter ++ ([' ', ' '] ++ Marshal logEntry)
            firstEntry := false
            ticks := st.ticks + 1 }
  else .running st

/-- Body of the print-only loop (source lines 122 to 125). -/
def printStep (lf : LogFilter) (stdout : List Out) (s : Str) : Scan (List Out) :=
  if (lf.LogLevel = [] ∨ Contains s lf.LogLevel = true) ∧
      (lf.CustomKeyword = [] ∨ Contains s lf.CustomKeyword = true) then
    match printColoredLog s with
    | none => .panicked stdout
    | some out => .running (stdout ++ out)
  else .running stdout

/-- The dual-sink loop (source lines 88 to 110).  `none` when the step
budget `fuel` runs out before the loop exits. -/
def dualLoop (lf : LogFilter) (now : Nat → Instant) :
    Nat → Reader → DualState → Option (Scan DualState)
  | 0, _, _ => none
  | fuel + 1, r, st =>
    match ReadString r '\n' with
    | (_, some _, _) => some (.running st)
    | (s, none, r2) =>
      match dualStep lf now st s with
      | .panicked out => some (.panicked out)
      | .running st2 => dualLoop lf now fuel r2 st2

/-- The print-only loop (source lines 116 to 126). -/
def printLoop (lf : LogFilter) : Nat → Reader → List Out → Option (Scan (List Out))
  | 0, _, _ => none
  | fuel + 1, r, stdout =>
    match ReadString r '\n' with
    | (_, some _, _) => some (.running stdout)
    | (s, none, r2) =>
      match printStep lf stdout s with
      | .panicked out => some (.panicked out)
      | .running stdout2 => printLoop lf fuel r2 stdout2

/-- What `Run` finds when it starts: the log file (`none` when it cannot be
opened), the prior content of the raw sink (`none` when it cannot be opened
for appending; empty when it does not exist yet), the prior content of the
JSON sink (`none` when it cannot be created), and the clock. -/
structure Env where
  logFile : Option Reader
  apiResponse : Option Str
  jsonFile : Option Str
  now : Nat → Instant

/-- How a call of `Run` ends: it returns (`err = none` is success) with what
was printed and the content of the two sinks, or it panics. -/
inductive Outcome
  | returned (err : Option RunError) (stdout : List Out) (apiResponse jsonFile : Option Str)
  | panicked (stdout : List Out)
  deriving DecidableEq, Repr

/-- Source method `LogFilter.Run` with a step budget for its loop. -/
def RunFuel (fuel : Nat) (lf : LogFilter) (env : Env) : Option Outcome :=
  match env.logFile with
  | none => some (.returned (some .openLogFile) [] env.apiResponse env.jsonFile)
  | some r =>
    if lf.ServerAPI then
      match env.apiResponse with
      | none => some (.returned (some .openAPIResponse) [] env.apiResponse env.jsonFile)
      | some prior =>
        match env.jsonFile with
        | none => some (.returned (some .createJSONFile) [] env.apiResponse env.jsonFile)
        | some _ =>
          let st : DualState :=
            { stdout := [], apiResponseWriter := [], jsonWriter := ['[', '\n'],
              firstEntry := true, ticks := 0 }
          match dualLoop lf env.now fuel r st with
          | none => none
          | some (.panicked out) => some (.panicked out)
          | some (.running st2) =>
            some (.returned none st2.stdout (some (prior ++ st2.apiResponseWriter))
              (some (st2.jsonWriter ++ ['\n', ']', '\n'])))
    else
      match printLoop lf fuel r [] with
      | none => none
      | some (.panicked out) => some (.panicked out)
      | some (.running out) => some (.returned none out env.apiResponse env.jsonFile)

/-- Source method `LogFilter.Run`.  Every pass of the loop consumes at least
one code point of the file, so its length plus one is budget enough. -/
def Run (lf : LogFilter) (env : Env) : Option Outcome :=
  RunFuel ((env.logFile.elim 0 fun r => r.pending.length) + 1) lf env

/-! ## JSON texts (RFC 8259)

A reader for JSON texts, used to state what the content of the JSON sink
denotes. -/

/-- A JSON value.  A number keeps its literal. -/
inductive JSON
  | null
  | bool (b : Bool)
  | number (literal : Str)
  | string (s : Str)
  | array (elems : List JSON)
  | object (members : List (Str × JSON))

/-- JSON insignificant whitespace. -/
def isWs (c : Char) : Bool :=
  c.toNat == 0x20 || c.toNat == 0x09 || c.toNat == 0x0A || c.toNat == 0x0D

/-- Drop leading whitespace. -/
def skipWs : Str → Str
  | [] => []
  | c :: rest => if isWs c then skipWs rest else c :: rest

/-- Value of a hexadecimal digit. -/
def hexVal (c : Char) : Option Nat :=
  let n := c.toNat
  if 48 ≤ n ∧ n ≤ 57 then some (n - 48)
  else if 97 ≤ n ∧ n ≤ 102 then some (n - 87)
  else if 65 ≤ n ∧ n ≤ 70 then some (n - 55)
  else none

/-- The character a two-character escape stands for. -/
def unescape (e : Char) : Option Char :=
  if e = '\x22' then some '\x22'
  else if e = '\x5c' then some '\x5c'
  else if e = '/' then some '/'
  else if e = 'b' then some (Char.ofNat 8)
  else if e = 'f' then some (Char.ofNat 12)
  else if e = 'n' then some '\n'
  else if e = 'r' then some '\r'
  else if e = 't' then some '\t'
  else none

/-- One element of a string literal: a character, or the UTF-16 code unit
of a `\uXXXX` escape. -/
inductive StrItem
  | lit (c : Char)
  | unit (n : Nat)
  deriving DecidableEq, Repr

/-- Put `a` in front of the list a reader returned. -/
def pushFront {α β : Type} (a : α) : Option (List α × β) → Option (List α × β)
  | some (xs, r) => some (a :: xs, r)
  | none => none

/-- Apply `f` to the value a reader returned. -/
def wrap {α β γ : Type} (f : α → γ) : Option (α × β) → Option (γ × β)
  | some (x, r) => some (f x, r)
  | none => none

/-- Where the reader stands inside a string literal: between elements,
after a backslash, or inside a `\uXXXX` escape with `left` more digits to
read after the next one and the value `acc` of those read. -/
inductive Lex
  | normal
  | escape
  | hex (left acc : Nat)
  deriving DecidableEq, Repr

/-- Read the inside of a string literal, up to and including the closing
quote. -/
def parseItemsFrom : Lex → Str → Option (List StrItem × Str)
  | _, [] => none
  | .normal, c :: rest =>
    if c = '\x22' then some ([], rest)
    else if c = '\x5c' then parseItemsFrom .escape rest
    else if c.toNat < 0x20 then none
    else
      pushFront (.lit c) (parseItemsFrom .normal rest)
  | .escape, e :: rest =>
    if e = 'u' then parseItemsFrom (.hex 3 0) rest
    else
      match unescape e with
      | none => none
      | some ch =>
        pushFront (.lit ch) (parseItemsFrom .normal rest)
  | .hex (left + 1) acc, h :: rest =>
    match hexVal h with
    | none => none
    | some x => parseItemsFrom (.hex left (acc * 16 + x)) rest
  | .hex 0 acc, h :: rest =>
    match hexVal h with
    | none => none
    | some x =>
      pushFront (.unit (acc * 16 + x)) (parseItemsFrom .normal rest)

/-- Read the inside of a string literal.  The input starts right after the
opening quote. -/
def parseItems (s : Str) : Option (List StrItem × Str) := parseItemsFrom .normal s

/-- The code points a sequence of string elements denotes: a high
surrogate followed by a low one is one code point, a lone surrogate is
U+FFFD.  `hi` is the high surrogate just read, if any. -/
def decodeItems : Option Nat → List StrItem → Str
  | none, [] => []
  | some _, [] => [Char.ofNat 0xFFFD]
  | none, .lit c :: rest => c :: decodeItems none rest
  | some _, .lit c :: rest => Char.ofNat 0xFFFD :: c :: decodeItems none rest
  | none, .unit n :: rest =>
    if 0xD800 ≤ n ∧ n < 0xDC00 then decodeItems (some n) rest
    else if 0xDC00 ≤ n ∧ n < 0xE000 then Char.ofNat 0xFFFD :: decodeItems none rest
    else Char.ofNat n :: decodeItems none rest
  | some h, .unit n :: rest =>
    if 0xDC00 ≤ n ∧ n < 0xE000 then
      Char.ofNat (0x10000 + (h - 0xD800) * 0x400 + (n - 0xDC00)) :: decodeItems none rest
    else if 0xD800 ≤ n ∧ n < 0xDC00 then Char.ofNat 0xFFFD :: decodeItems (some n) rest
    else Char.ofNat 0xFFFD :: Char.ofNat n :: decodeItems none rest

/-- Read a string literal after its opening quote. -/
def parseString (s : Str) : Option (Str × Str) :=
  wrap (decodeItems none) (parseItems s)

/-- Decimal digit test. -/
def isDigit (c : Char) : Bool := decide (48 ≤ c.toNat) && decide (c.toNat ≤ 57)

/-- Read the digits at the head of the input. -/
def takeDigits : Str → Str × Str
  | [] => ([], [])
  | c :: rest =>
    if isDigit c then ((takeDigits rest).1.cons c, (takeDigits rest).2) else ([], c :: rest)

/-- Read a number literal: optional minus, integer part without leading
zero, optional fraction, optional exponent. -/
def parseNumber (s : Str) : Option (Str × Str) :=
  let signed : Str × Str :=
    match s with
    | c :: r => if c = '-' then ([c], r) else ([], s)
    | [] => ([], s)
  let intPart : Option (Str × Str) :=
    match signed.2 with
    | [] => none
    | c :: r =>
      if c = '0' then some ([c], r)
      else if isDigit c then some (c :: (takeDigits r).1, (takeDigits r).2)
      else none
  match intPart with
  | none => none
  | some (ds, r1) =>
    let frac : Option (Str × Str) :=
      match r1 with
      | c :: r =>
        if c = '.' then
          (if (takeDigits r).1 = [] then none else some (c :: (takeDigits r).1, (takeDigits r).2))
        else some ([], r1)
      | [] => some ([], r1)
    match frac with
    | none => none
    | some (fs, r2) =>
      let exp : Option (Str × Str) :=
        match r2 with
        | c :: r =>
          if c = 'e' ∨ c = 'E' then
            let sg : Str × Str :=
              match r with
              | d :: r3 => if d = '+' ∨ d = '-' then ([d], r3) else ([], r)
              | [] => ([], r)
            (if (takeDigits sg.2).1 = [] then none
             else some (c :: (sg.1 ++ (takeDigits sg.2).1), (takeDigits sg.2).2))
          else some ([], r2)
        | [] => some ([], r2)
      match exp with
      | none => none
      | some (es, r3) => some (signed.1 ++ ds ++ fs ++ es, r3)

/-- Read the elements of a non-empty array up to and including the closing
bracket; `pv` reads one value. -/
def parseElems (pv : Str → Option (JSON × Str)) : Nat → Str → Option (List JSON × Str)
  | 0, _ => none
  | n + 1, s =>
    match pv s with
    | none => none
    | some (v, r) =>
      match skipWs r with
      | [] => none
      | c :: r2 =>
        if c = ',' then
          pushFront v (parseElems pv n r2)
        else if c = ']' then some ([v], r2)
        else none

/-- Read the members of a non-empty object up to and including the closing
brace; `pv` reads one value. -/
def parseMembers (pv : Str → Option (JSON × Str)) :
    Nat → Str → Option (List (Str × JSON) × Str)
  | 0, _ => none
  | n + 1, s =>
    match skipWs s with
    | [] => none
    | q :: r0 =>
      if q = '\x22' then
        match parseString r0 with
        | none => none
        | some (k, r1) =>
          match skipWs r1 with
          | [] => none
          | c1 :: r2 =>
            if c1 = ':' then
              match pv r2 with
              | none => none
              | some (v, r3) =>
                match skipWs r3 with
                | [] => none
                | c :: r4 =>
                  if c = ',' then
                    pushFront (k, v) (parseMembers pv n r4)
                  else if c = '\x7d' then some ([(k, v)], r4)
                  else none
            else none
      else none

/-- Read one JSON value, with leading whitespace; `fuel` bounds the nesting
depth. -/
def parseValue : Nat → Str → Option (JSON × Str)
  | 0, _ => none
  | fuel + 1, s =>
    match skipWs s with
    | [] => none
    | c :: r =>
      if c = '\x22' then
        wrap JSON.string (parseString r)
      else if c = '[' then
        match skipWs r with
        | [] => none
        | d :: r2 =>
          if d = ']' then some (.array [], r2)
          else
            wrap JSON.array (parseElems (parseValue fuel) (r.length + 1) r)
      else if c = '\x7b' then
        match skipWs r with
        | [] => none
        | d :: r2 =>
          if d = '\x7d' then some (.object [], r2)
          else
            wrap JSON.object (parseMembers (parseValue fuel) (r.length + 1) r)
      else if HasPrefix (c :: r) ['t', 'r', 'u', 'e'] then some (.bool true, r.drop 3)
      else if HasPrefix (c :: r) ['f', 'a', 'l', 's', 'e'] then some (.bool false, r.drop 4)
      else if HasPrefix (c :: r) ['n', 'u', 'l', 'l'] then some (.null, r.drop 3)
      else
        wrap JSON.number (parseNumber (c :: r))

/-- Read a whole JSON text: one value, then only whitespace. -/
def parseJSON (s : Str) : Option JSON :=
  match parseValue (s.length + 1) s with
  | some (v, r) => if skipWs r = [] then some v else none
  | none => none

/-- The JSON object a `LogEntry` denotes. -/
def LogEntry.toJSON (e : LogEntry) : JSON :=
  .object [("date".toList, .string e.Date), ("time".toList, .string e.Time),
    ("keyword".toList, .string e.Keyword), ("message".toList, .string e.Message)]

/-! ## Specification-side definitions -/

/-- Scan for `completeLines`: `cur` is the current line, reversed. -/
def linesAux : Str → Str → List Str
  | _, [] => []
  | cur, c :: rest =>
    if c = '\n' then (cur.reverse ++ [c]) :: linesAux [] rest else linesAux (c :: cur) rest

/-- Specification: the lines of a text, each with its newline; what follows
the last newline is not a line. -/
def completeLines (s : Str) : List Str := linesAux [] s

/-- Specification: the filter predicate of the pipeline. -/
def Matches (lf : LogFilter) (s : Str) : Prop :=
  (lf.LogLevel = [] ∨ lf.LogLevel <:+: s) ∧ (lf.CustomKeyword = [] ∨ lf.CustomKeyword <:+: s)

/-- The filter predicate is decidable. -/
instance Matches.decidable (lf : LogFilter) (s : Str) : Decidable (Matches lf s) := by
  unfold Matches; infer_instance

/-- Specification: a line has the three leading fields. -/
def wellFormed (s : Str) : Prop := 3 ≤ (Fields s).length

/-- Having three fields is decidable. -/
instance wellFormed.decidable (s : Str) : Decidable (wellFormed s) := by
  unfold wellFormed; infer_instance

/-- Specification: the colour of the level field. -/
def levelColor (tag : Str) : Attribute :=
  if ToUpper tag = "WARNING".toList then .FgHiRed
  else if ToUpper tag = "TRACE".toList then .FgHiWhite
  else .FgHiGreen

/-- Specification: the writes that display a line. -/
def coloredLine (s : Str) : List Out :=
  [.colored .FgHiRed ((Fields s).getD 0 []), .plain [' '],
    .colored .FgHiBlack ((Fields s).getD 1 []), .plain [' '],
    .colored (levelColor ((Fields s).getD 2 [])) ((Fields s).getD 2 []), .plain [' '],
    .colored .FgWhite (List.intercalate [' '] ((Fields s).drop 3)), .plain ['\n']]

/-- Specification: the record of a line processed at the reading `t`. -/
def record (t : Instant) (s : Str) : LogEntry :=
  { Date := (Format t).take 10
    Time := ((Format t).drop 11).take 8
    Keyword := (Fields s).getD 2 []
    Message := List.intercalate [' '] ((Fields s).drop 3) }

/-- The dual-sink loop body applied to the lines of a list in order. -/
def dualScan (lf : LogFilter) (now : Nat → Instant) : DualState → List Str → Scan DualState
  | st, [] => .running st
  | st, s :: ls =>
    match dualStep lf now st s with
    | .panicked out => .panicked out
    | .running st2 => dualScan lf now st2 ls

/-- The print-only loop body applied to the lines of a list in order. -/
def printScan (lf : LogFilter) : List Out → List Str → Scan (List Out)
  | out, [] => .running out
  | out, s :: ls =>
    match printStep lf out s with
    | .panicked o => .panicked o
    | .running out2 => printScan lf out2 ls

/-- Specification: the lines of a list that pass the filter, in order. -/
def matching (lf : LogFilter) (ls : List Str) : List Str :=
  ls.filter fun s => decide (Matches lf s)

/-- Specification: the records of the matching lines; the line at position
`i` is processed at the reading `now (k + i)`. -/
def recordsFrom (now : Nat → Instant) : Nat → List Str → List LogEntry
  | _, [] => []
  | k, s :: ms => record (now k) s :: recordsFrom now (k + 1) ms

/-- What the dual-sink loop writes to the JSON writer for the matching lines
`ms`, starting with `firstEntry = first` and `k` clock readings used. -/
def jsonRecords (now : Nat → Instant) : Bool → Nat → List Str → Str
  | _, _, [] => []
  | first, k, s :: ms =>
    (if first then [] else [',', '\n']) ++ ([' ', ' '] ++ Marshal (record (now k) s)) ++
      jsonRecords now false (k + 1) ms

/-- Specification: the text of the JSON sink for a list of records. -/
def jsonText (es : List LogEntry) : Str :=
  ['[', '\n'] ++ List.intercalate [',', '\n'] (es.map fun e => ' ' :: ' ' :: Marshal e) ++
    ['\n', ']', '\n']

/-- Specification: the outcome of `Run`, in terms of the matching lines of
the log file. -/
def RunSpec (lf : LogFilter) (env : Env) : Outcome :=
  match env.logFile with
  | none => .returned (some .openLogFile) [] env.apiResponse env.jsonFile
  | some r =>
    if lf.ServerAPI then
      match env.apiResponse with
      | none => .returned (some .openAPIResponse) [] env.apiResponse env.jsonFile
      | some prior =>
        match env.jsonFile with
        | none => .returned (some .createJSONFile) [] env.apiResponse env.jsonFile
        | some _ =>
          if ∀ s ∈ matching lf (completeLines r.pending), wellFormed s then
            .returned none ((matching lf (completeLines r.pending)).flatMap coloredLine)
              (some (prior ++ (matching lf (completeLines r.pending)).flatten))
              (some (jsonText (recordsFrom env.now 0 (matching lf (completeLines r.pending)))))
          else
            .panicked (((matching lf (completeLines r.pending)).takeWhile
              fun s => decide (wellFormed s)).flatMap coloredLine)
    else
      if ∀ s ∈ matching lf (completeLines r.pending), wellFormed s then
        .returned none ((matching lf (completeLines r.pending)).flatMap coloredLine)
          env.apiResponse env.jsonFile
      else
        .panicked (((matching lf (completeLines r.pending)).takeWhile
          fun s => decide (wellFormed s)).flatMap coloredLine)

/-- The string element the reader obtains from what `escapeRune` writes. -/
def itemOf (c : Char) : StrItem :=
  if (escapeRune c).length ≤ 2 then .lit c else .unit c.toNat

/-- Specification: a calendar reading with a four-digit year. -/
def Instant.calendar (t : Instant) : Prop :=
  t.year ≤ 9999 ∧ 1 ≤ t.month ∧ t.month ≤ 12 ∧ 1 ≤ t.day ∧ t.day ≤ 31 ∧
    t.hour ≤ 23 ∧ t.minute ≤ 59 ∧ t.second ≤ 59

/-- Being a calendar reading is decidable. -/
instance Instant.calendar.decidable (t : Instant) : Decidable t.calendar := by
  unfold Instant.calendar; infer_instance

/-- Specification: the layout `YYYY-MM-DD`. -/
def formatDate (t : Instant) : Str :=
  [digit (t.year / 1000), digit (t.year / 100), digit (t.year / 10), digit t.year, '-',
    digit (t.month / 10), digit t.month, '-', digit (t.day / 10), digit t.day]

/-- Specification: the layout `HH:MM:SS`. -/
def formatTime (t : Instant) : Str :=
  [digit (t.hour / 10), digit t.hour, ':', digit (t.minute / 10), digit t.minute, ':',
    digit (t.second / 10), digit t.second]

/-! ### Concrete inputs -/

/-- A log line with five fields. -/
def demoLine : Str := "d t INFO up now\n".toList

/-- A clock that always reads 2024-01-02 03:04:05. -/
def demoClock : Nat → Instant := fun _ => ⟨2024, 1, 2, 3, 4, 5⟩

/-- Dual-sink mode with both filters empty. -/
def demoDual : LogFilter := { NewLogFilter with ServerAPI := true }

/-- A log file holding `demoLine`, and two sinks with prior content. -/
def demoEnv : Env := ⟨some ⟨demoLine, .EOF⟩, some ['x'], some ['y'], demoClock⟩

/-- The example line of the specification. -/
def exampleLine : Str := "2024-01-01 10:00:00 INFO Service started".toList

/-- A log file holding the single line `onlytwo tokens`. -/
def shortEnv : Env := ⟨some ⟨"onlytwo tokens\n".toList, .EOF⟩, some [], some [], demoClock⟩

/-- The level filter `INFO`, print-only mode. -/
def levelInfo : LogFilter := { NewLogFilter with LogLevel := "INFO".toList }

/-- The level filter `INFO`, dual-sink mode. -/
def levelInfoDual : LogFilter := { NewLogFilter with LogLevel := "INFO".toList, ServerAPI := true }

/-- A line of level `ERROR` whose message mentions `INFO`. -/
def errorLine : Str := "d t ERROR INFO lost\n".toList

/-- A line in which `INFO` does not occur. -/
def warnLine : Str := "d t WARN disk\n".toList

/-! ## Lemmas -/

theorem HasPrefix_iff (s p : Str) : HasPrefix s p = true ↔ p <+: s := by
  induction s generalizing p with
  | nil => cases p <;> simp [HasPrefix]
  | cons c s ih =>
    cases p with
    | nil => simp [HasPrefix]
    | cons d p =>
      simp [HasPrefix, ih, List.cons_prefix_cons]
      intro _
      constructor <;> intro h <;> exact h.symm

theorem Contains_iff (s p : Str) : Contains s p = true ↔ p <:+: s := by
  induction s with
  | nil => cases p <;> simp [Contains, HasPrefix]
  | cons c s ih =>
    simp only [Contains, Bool.or_eq_true, HasPrefix_iff, ih, List.infix_cons_iff]

theorem linesAux_acc (cur s : Str) :
    linesAux cur s = match splitDelim '\n' s with
      | none => []
      | some (l, r) => (cur.reverse ++ l) :: linesAux [] r := by
  induction s generalizing cur with
  | nil => simp [linesAux, splitDelim]
  | cons c s ih =>
    by_cases hc : c = '\n'
    · simp [linesAux, splitDelim, hc]
    · simp only [linesAux, splitDelim, hc, if_false]
      rw [ih]
      cases h : splitDelim '\n' s with
      | none => simp
      | some p => obtain ⟨l, r⟩ := p; simp

theorem splitDelim_length (d : Char) (s l r : Str) (h : splitDelim d s = some (l, r)) :
    r.length < s.length ∧ s = l ++ r := by
  induction s generalizing l r with
  | nil => simp [splitDelim] at h
  | cons c s ih =>
    by_cases hc : c = d
    · simp [splitDelim, hc] at h
      obtain ⟨rfl, rfl⟩ := h
      simp [hc]
    · simp only [splitDelim, hc, if_false] at h
      cases h2 : splitDelim d s with
      | none => simp [h2] at h
      | some p =>
        obtain ⟨l2, r2⟩ := p
        simp [h2] at h
        obtain ⟨rfl, rfl⟩ := h
        have := ih l2 r2 h2
        constructor
        · simp; omega
        · simp; exact this.2

theorem printColoredLog_eq (s : Str) :
    printColoredLog s = if wellFormed s then some (coloredLine s) else none := by
  by_cases hw : wellFormed s
  · rw [if_pos hw]
    unfold wellFormed at hw
    unfold printColoredLog coloredLine levelColor
    rcases h : Fields s with _ | ⟨a, _ | ⟨b, _ | ⟨c, rest⟩⟩⟩
    · simp [h] at hw
    · simp [h] at hw
    · simp [h] at hw
    · simp [sliceFrom, Join]
      split_ifs <;> simp
  · rw [if_neg hw]
    unfold wellFormed at hw
    unfold printColoredLog
    rcases h : Fields s with _ | ⟨a, _ | ⟨b, _ | ⟨c, rest⟩⟩⟩
    · simp
    · simp
    · simp
    · simp [h] at hw

theorem appendInt_length (x w : Nat) : w ≤ (appendInt x w).length := by
  unfold appendInt
  split_ifs with h1 h2
  · simp [h1.1]
  · simp [h2.1]
  · simp; omega

theorem Format_length (t : Instant) : 19 ≤ (Format t).length := by
  unfold Format
  have h1 := appendInt_length t.year 4
  have h2 := appendInt_length t.month 2
  have h3 := appendInt_length t.day 2
  have h4 := appendInt_length t.hour 2
  have h5 := appendInt_length t.minute 2
  have h6 := appendInt_length t.second 2
  simp only [List.length_append, List.length_cons]
  omega

theorem parseLogEntry_eq (t : Instant) (s : Str) :
    parseLogEntry t s = if wellFormed s then some (record t s) else none := by
  have hl := Format_length t
  have e1 : slice (Format t) 0 10 = some ((Format t).take 10) := by
    simp [slice]; omega
  have e2 : slice (Format t) 11 19 = some (((Format t).drop 11).take 8) := by
    simp [slice]; omega
  by_cases hw : wellFormed s
  · rw [if_pos hw]
    unfold wellFormed at hw
    unfold parseLogEntry record
    simp only [e1, e2]
    rcases h : Fields s with _ | ⟨a, _ | ⟨b, _ | ⟨c, rest⟩⟩⟩
    · simp [h] at hw
    · simp [h] at hw
    · simp [h] at hw
    · simp [sliceFrom, Join]
  · rw [if_neg hw]
    unfold wellFormed at hw
    unfold parseLogEntry
    simp only [e1, e2]
    rcases h : Fields s with _ | ⟨a, _ | ⟨b, _ | ⟨c, rest⟩⟩⟩
    · simp
    · simp
    · simp
    · simp [h] at hw

theorem ReadString_eq (r : Reader) :
    ReadString r '\n' = match splitDelim '\n' r.pending with
      | some (line, rest) => (line, none, { r with pending := rest })
      | none => (r.pending, some r.ending, { r with pending := [] }) := rfl

theorem completeLines_eq (s : Str) :
    completeLines s = match splitDelim '\n' s with
      | none => []
      | some (l, r) => l :: completeLines r := by
  unfold completeLines
  rw [linesAux_acc]
  cases splitDelim '\n' s with
  | none => rfl
  | some p => simp

theorem dualLoop_eq_scan (lf : LogFilter) (now : Nat → Instant) (fuel : Nat) (r : Reader)
    (st : DualState) (h : r.pending.length < fuel) :
    dualLoop lf now fuel r st = some (dualScan lf now st (completeLines r.pending)) := by
  induction fuel generalizing r st with
  | zero => omega
  | succ n ih =>
    rw [completeLines_eq]
    unfold dualLoop
    rw [ReadString_eq]
    cases hs : splitDelim '\n' r.pending with
    | none => simp [dualScan]
    | some p =>
      obtain ⟨l, rest⟩ := p
      have hlen := (splitDelim_length _ _ _ _ hs).1
      simp only [dualScan]
      cases dualStep lf now st l with
      | panicked out => rfl
      | running st2 =>
        simp only
        exact ih { r with pending := rest } st2 (by simp; omega)

theorem printLoop_eq_scan (lf : LogFilter) (fuel : Nat) (r : Reader)
    (out : List Out) (h : r.pending.length < fuel) :
    printLoop lf fuel r out = some (printScan lf out (completeLines r.pending)) := by
  induction fuel generalizing r out with
  | zero => omega
  | succ n ih =>
    rw [completeLines_eq]
    unfold printLoop
    rw [ReadString_eq]
    cases hs : splitDelim '\n' r.pending with
    | none => simp [printScan]
    | some p =>
      obtain ⟨l, rest⟩ := p
      have hlen := (splitDelim_length _ _ _ _ hs).1
      simp only [printScan]
      cases printStep lf out l with
      | panicked o => rfl
      | running out2 =>
        simp only
        exact ih { r with pending := rest } out2 (by simp; omega)

theorem cond_iff (lf : LogFilter) (s : Str) :
    ((lf.LogLevel = [] ∨ Contains s lf.LogLevel = true) ∧
      (lf.CustomKeyword = [] ∨ Contains s lf.CustomKeyword = true)) ↔ Matches lf s := by
  simp only [Contains_iff, Matches]

theorem dualStep_eq (lf : LogFilter) (now : Nat → Instant) (st : DualState) (s : Str) :
    dualStep lf now st s =
      if Matches lf s then
        if wellFormed s then
          .running
            { stdout := st.stdout ++ coloredLine s
              apiResponseWriter := st.apiResponseWriter ++ s
              jsonWriter := st.jsonWriter ++ ((if st.firstEntry then [] else [',', '\n']) ++
                ([' ', ' '] ++ Marshal (record (now st.ticks) s)))
              firstEntry := false
              ticks := st.ticks + 1 }
        else .panicked st.stdout
      else .running st := by
  unfold dualStep
  by_cases hm : Matches lf s
  · rw [if_pos ((cond_iff lf s).2 hm), if_pos hm, printColoredLog_eq, parseLogEntry_eq]
    by_cases hw : wellFormed s
    · simp only [if_pos hw]
      cases st.firstEntry <;> simp
    · simp only [if_neg hw]
  · rw [if_neg (fun h => hm ((cond_iff lf s).1 h)), if_neg hm]

theorem printStep_eq (lf : LogFilter) (out : List Out) (s : Str) :
    printStep lf out s =
      if Matches lf s then
        if wellFormed s then .running (out ++ coloredLine s) else .panicked out
      else .running out := by
  unfold printStep
  by_cases hm : Matches lf s
  · rw [if_pos ((cond_iff lf s).2 hm), if_pos hm, printColoredLog_eq]
    by_cases hw : wellFormed s
    · simp only [if_pos hw]
    · simp only [if_neg hw]
  · rw [if_neg (fun h => hm ((cond_iff lf s).1 h)), if_neg hm]

theorem dualScan_eq (lf : LogFilter) (now : Nat → Instant) (st : DualState) (ls : List Str) :
    dualScan lf now st ls =
      if ∀ s ∈ matching lf ls, wellFormed s then
        .running
          { stdout := st.stdout ++ (matching lf ls).flatMap coloredLine
            apiResponseWriter := st.apiResponseWriter ++ (matching lf ls).flatten
            jsonWriter := st.jsonWriter ++ jsonRecords now st.firstEntry st.ticks (matching lf ls)
            firstEntry := st.firstEntry && (matching lf ls).isEmpty
            ticks := st.ticks + (matching lf ls).length }
      else
        .panicked (st.stdout ++
          ((matching lf ls).takeWhile fun s => decide (wellFormed s)).flatMap coloredLine) := by
  induction ls generalizing st with
  | nil => simp [dualScan, matching, jsonRecords]
  | cons s ls ih =>
    rw [dualScan, dualStep_eq]
    by_cases hm : Matches lf s
    · have e : matching lf (s :: ls) = s :: matching lf ls := by simp [matching, hm]
      rw [e]
      by_cases hw : wellFormed s
      · simp only [if_pos hm, if_pos hw]
        rw [ih]
        by_cases hall : ∀ x ∈ matching lf ls, wellFormed x
        · have hall2 : ∀ x ∈ s :: matching lf ls, wellFormed x := by
            intro x hx
            rcases List.mem_cons.1 hx with rfl | hx
            · exact hw
            · exact hall x hx
          rw [if_pos hall, if_pos hall2]
          simp [jsonRecords, List.append_assoc]
          omega
        · have hall2 : ¬ ∀ x ∈ s :: matching lf ls, wellFormed x := by
            intro h
            exact hall fun x hx => h x (List.mem_cons_of_mem _ hx)
          rw [if_neg hall, if_neg hall2]
          simp [hw, List.append_assoc]
      · have hall2 : ¬ ∀ x ∈ s :: matching lf ls, wellFormed x := by
          intro h
          exact hw (h s (List.mem_cons_self _ _))
        simp only [if_pos hm, if_neg hw]
        rw [if_neg hall2]
        simp [hw]
    · have e : matching lf (s :: ls) = matching lf ls := by simp [matching, hm]
      rw [e]
      simp only [if_neg hm]
      rw [ih]

theorem printScan_eq (lf : LogFilter) (out : List Out) (ls : List Str) :
    printScan lf out ls =
      if ∀ s ∈ matching lf ls, wellFormed s then
        .running (out ++ (matching lf ls).flatMap coloredLine)
      else
        .panicked (out ++
          ((matching lf ls).takeWhile fun s => decide (wellFormed s)).flatMap coloredLine) := by
  induction ls generalizing out with
  | nil => simp [printScan, matching]
  | cons s ls ih =>
    rw [printScan, printStep_eq]
    by_cases hm : Matches lf s
    · have e : matching lf (s :: ls) = s :: matching lf ls := by simp [matching, hm]
      rw [e]
      by_cases hw : wellFormed s
      · simp only [if_pos hm, if_pos hw]
        rw [ih]
        by_cases hall : ∀ x ∈ matching lf ls, wellFormed x
        · have hall2 : ∀ x ∈ s :: matching lf ls, wellFormed x := by
            intro x hx
            rcases List.mem_cons.1 hx with rfl | hx
            · exact hw
            · exact hall x hx
          rw [if_pos hall, if_pos hall2]
          simp [List.append_assoc]
        · have hall2 : ¬ ∀ x ∈ s :: matching lf ls, wellFormed x := by
            intro h
            exact hall fun x hx => h x (List.mem_cons_of_mem _ hx)
          rw [if_neg hall, if_neg hall2]
          simp [hw, List.append_assoc]
      · have hall2 : ¬ ∀ x ∈ s :: matching lf ls, wellFormed x := by
          intro h
          exact hw (h s (List.mem_cons_self _ _))
        simp only [if_pos hm, if_neg hw]
        rw [if_neg hall2]
        simp [hw]
    · have e : matching lf (s :: ls) = matching lf ls := by simp [matching, hm]
      rw [e]
      simp only [if_neg hm]
      rw [ih]

theorem intercalate_cons_eq {α : Type} (sep x : List α) (xs : List (List α)) :
    List.intercalate sep (x :: xs) = x ++ (xs.map fun y => sep ++ y).flatten := by
  induction xs generalizing x with
  | nil => simp [List.intercalate]
  | cons y ys ih =>
    have := ih y
    simp only [List.intercalate, List.intersperse, List.flatten_cons, List.map_cons] at this ⊢
    rw [this]
    simp

theorem jsonRecords_false (now : Nat → Instant) (k : Nat) (ms : List Str) :
    jsonRecords now false k ms =
      ((recordsFrom now k ms).map fun e => [',', '\n'] ++ (' ' :: ' ' :: Marshal e)).flatten := by
  induction ms generalizing k with
  | nil => simp [jsonRecords, recordsFrom]
  | cons s ms ih => simp [jsonRecords, recordsFrom, ih]

theorem jsonRecords_true (now : Nat → Instant) (k : Nat) (ms : List Str) :
    jsonRecords now true k ms =
      List.intercalate [',', '\n']
        ((recordsFrom now k ms).map fun e => ' ' :: ' ' :: Marshal e) := by
  cases ms with
  | nil => simp [jsonRecords, recordsFrom, List.intercalate]
  | cons s ms =>
    simp only [jsonRecords, recordsFrom, List.map_cons, intercalate_cons_eq, jsonRecords_false,
      List.map_map]
    simp [Function.comp_def]

theorem RunFuel_eq (fuel : Nat) (lf : LogFilter) (env : Env)
    (h : ∀ r, env.logFile = some r → r.pending.length < fuel) :
    RunFuel fuel lf env = some (RunSpec lf env) := by
  unfold RunFuel RunSpec
  cases hr : env.logFile with
  | none => rfl
  | some r =>
    have hf := h r hr
    simp only
    cases lf.ServerAPI with
    | false =>
      simp only [Bool.false_eq_true, if_false]
      rw [printLoop_eq_scan lf fuel r [] hf, printScan_eq]
      by_cases hall : ∀ s ∈ matching lf (completeLines r.pending), wellFormed s
      · simp only [if_pos hall, List.nil_append]
      · simp only [if_neg hall, List.nil_append]
    | true =>
      simp only [if_true]
      cases env.apiResponse with
      | none => rfl
      | some prior =>
        cases env.jsonFile with
        | none => rfl
        | some old =>
          simp only
          rw [dualLoop_eq_scan lf env.now fuel r _ hf, dualScan_eq]
          by_cases hall : ∀ s ∈ matching lf (completeLines r.pending), wellFormed s
          · simp only [if_pos hall, List.nil_append, jsonRecords_true, jsonText,
              List.append_assoc]
          · simp only [if_neg hall, List.nil_append]

theorem Run_eq (lf : LogFilter) (env : Env) : Run lf env = some (RunSpec lf env) := by
  unfold Run
  apply RunFuel_eq
  intro r hr
  simp [hr]

theorem hexVal_hexDigit (n : Nat) : hexVal (hexDigit n) = some (n % 16) := by
  have key : ∀ m, m < 16 → hexVal (hexDigit m) = some m := by decide
  have h := key (n % 16) (Nat.mod_lt _ (by decide))
  unfold hexDigit at h ⊢
  rw [Nat.mod_mod] at h
  exact h

theorem char_eq_of_toNat {c : Char} {k : Nat} (h : c.toNat = k) : c = Char.ofNat k := by
  rw [← h, Char.ofNat_toNat]

theorem parseItems_lit (c : Char) (tail : Str) (h1 : c.toNat ≠ 0x22) (h2 : c.toNat ≠ 0x5C)
    (h3 : 0x20 ≤ c.toNat) :
    parseItemsFrom .normal (c :: tail) = pushFront (.lit c) (parseItemsFrom .normal tail) := by
  have e1 : c ≠ '\x22' := fun h => h1 (by rw [h]; decide)
  have e2 : c ≠ '\x5c' := fun h => h2 (by rw [h]; decide)
  rw [parseItemsFrom]
  simp [e1, e2, Nat.not_lt.2 h3]

theorem parseItems_short (e ch : Char) (tail : Str) (h1 : e ≠ 'u') (h2 : unescape e = some ch) :
    parseItemsFrom .normal ('\x5c' :: e :: tail) =
      pushFront (.lit ch) (parseItemsFrom .normal tail) := by
  rw [parseItemsFrom]
  simp only [Char.reduceEq, if_false, if_true]
  rw [parseItemsFrom]
  simp [h1, h2]

theorem parseItems_unit (a b c d : Char) (x y z w : Nat) (tail : Str)
    (ha : hexVal a = some x) (hb : hexVal b = some y) (hc : hexVal c = some z)
    (hd : hexVal d = some w) :
    parseItemsFrom .normal ('\x5c' :: 'u' :: a :: b :: c :: d :: tail) =
      pushFront (.unit (((x * 16 + y) * 16 + z) * 16 + w)) (parseItemsFrom .normal tail) := by
  simp [parseItemsFrom, ha, hb, hc, hd]

theorem parseItems_escapeRune (c : Char) (tail : Str) :
    parseItemsFrom .normal (escapeRune c ++ tail) =
      pushFront (itemOf c) (parseItemsFrom .normal tail) := by
  by_cases h80 : c.toNat < 0x80
  · by_cases hs : 0x20 ≤ c.toNat ∧ c.toNat ≠ 0x22 ∧ c.toNat ≠ 0x5C ∧ c.toNat ≠ 0x3C ∧
        c.toNat ≠ 0x3E ∧ c.toNat ≠ 0x26
    · have he : escapeRune c = [c] := by unfold escapeRune; simp only [if_pos h80, if_pos hs]
      have hi : itemOf c = .lit c := by unfold itemOf; simp [he]
      rw [he, hi]
      exact parseItems_lit c tail hs.2.1 hs.2.2.1 hs.1
    · by_cases hq : c.toNat = 0x5C ∨ c.toNat = 0x22
      · have he : escapeRune c = ['\x5c', c] := by
          unfold escapeRune; simp only [if_pos h80, if_neg hs, if_pos hq]
        have hi : itemOf c = .lit c := by unfold itemOf; simp [he]
        rw [he, hi]
        rcases hq with h | h
        · have hc := char_eq_of_toNat h
          subst hc
          exact parseItems_short _ _ tail (by decide) (by decide)
        · have hc := char_eq_of_toNat h
          subst hc
          exact parseItems_short _ _ tail (by decide) (by decide)
      · by_cases h8 : c.toNat = 0x08
        · have hc := char_eq_of_toNat h8
          subst hc
          exact parseItems_short _ _ tail (by decide) (by decide)
        · by_cases h12 : c.toNat = 0x0C
          · have hc := char_eq_of_toNat h12
            subst hc
            exact parseItems_short _ _ tail (by decide) (by decide)
          · by_cases h10 : c.toNat = 0x0A
            · have hc := char_eq_of_toNat h10
              subst hc
              exact parseItems_short _ _ tail (by decide) (by decide)
            · by_cases h13 : c.toNat = 0x0D
              · have hc := char_eq_of_toNat h13
                subst hc
                exact parseItems_short _ _ tail (by decide) (by decide)
              · by_cases h9 : c.toNat = 0x09
                · have hc := char_eq_of_toNat h9
                  subst hc
                  exact parseItems_short _ _ tail (by decide) (by decide)
                · have he : escapeRune c =
                      ['\x5c', 'u', '0', '0', hexDigit (c.toNat / 16), hexDigit c.toNat] := by
                    unfold escapeRune
                    simp only [if_pos h80, if_neg hs, if_neg hq, if_neg h8, if_neg h12,
                      if_neg h10, if_neg h13, if_neg h9]
                  have hi : itemOf c = .unit c.toNat := by unfold itemOf; simp [he]
                  rw [he, hi]
                  have hp := parseItems_unit '0' '0' (hexDigit (c.toNat / 16))
                    (hexDigit c.toNat) 0 0 (c.toNat / 16 % 16) (c.toNat % 16) tail
                    (by decide) (by decide) (hexVal_hexDigit _) (hexVal_hexDigit _)
                  have hv : ((0 * 16 + 0) * 16 + c.toNat / 16 % 16) * 16 + c.toNat % 16 =
                      c.toNat := by omega
                  rw [hv] at hp
                  exact hp
  · by_cases hu : c.toNat = 0x2028 ∨ c.toNat = 0x2029
    · have he : escapeRune c = ['\x5c', 'u', '2', '0', '2', hexDigit c.toNat] := by
        unfold escapeRune; simp only [if_neg h80, if_pos hu]
      have hi : itemOf c = .unit c.toNat := by unfold itemOf; simp [he]
      rw [he, hi]
      have hp := parseItems_unit '2' '0' '2' (hexDigit c.toNat) 2 0 2 (c.toNat % 16) tail
        (by decide) (by decide) (by decide) (hexVal_hexDigit _)
      have hv : ((2 * 16 + 0) * 16 + 2) * 16 + c.toNat % 16 = c.toNat := by omega
      rw [hv] at hp
      exact hp
    · have he : escapeRune c = [c] := by unfold escapeRune; simp only [if_neg h80, if_neg hu]
      have hi : itemOf c = .lit c := by unfold itemOf; simp [he]
      rw [he, hi]
      exact parseItems_lit c tail (by omega) (by omega) (by omega)

theorem itemOf_unit_range (c : Char) (n : Nat) (h : itemOf c = .unit n) :
    n = c.toNat ∧ (n < 0xD800 ∨ 0xE000 ≤ n) := by
  unfold itemOf at h
  split_ifs at h with hl
  simp only [StrItem.unit.injEq] at h
  refine ⟨h.symm, ?_⟩
  subst h
  by_contra hcon
  have hne : escapeRune c = [c] := by
    unfold escapeRune
    have h1 : ¬ c.toNat < 0x80 := by omega
    have h2 : ¬ (c.toNat = 0x2028 ∨ c.toNat = 0x2029) := by omega
    simp only [if_neg h1, if_neg h2]
  rw [hne] at hl
  simp at hl

theorem decodeItems_map_itemOf (s : Str) : decodeItems none (s.map itemOf) = s := by
  induction s with
  | nil => rfl
  | cons c s ih =>
    rw [List.map_cons]
    cases hi : itemOf c with
    | lit d =>
      have hd : d = c := by
        unfold itemOf at hi
        split_ifs at hi
        simpa using hi.symm
      rw [decodeItems, ih, hd]
    | unit n =>
      obtain ⟨hn, hr⟩ := itemOf_unit_range c n hi
      have h1 : ¬ (0xD800 ≤ n ∧ n < 0xDC00) := by omega
      have h2 : ¬ (0xDC00 ≤ n ∧ n < 0xE000) := by omega
      rw [decodeItems, if_neg h1, if_neg h2, ih, hn, Char.ofNat_toNat]

theorem parseItems_flatMap (s tail : Str) :
    parseItemsFrom .normal (s.flatMap escapeRune ++ '\x22' :: tail) =
      some (s.map itemOf, tail) := by
  induction s with
  | nil => simp [parseItemsFrom]
  | cons c s ih =>
    rw [List.flatMap_cons, List.append_assoc, parseItems_escapeRune, ih]
    rfl

theorem parseString_encode (s tail : Str) :
    parseString (s.flatMap escapeRune ++ '\x22' :: tail) = some (s, tail) := by
  unfold parseString parseItems
  rw [parseItems_flatMap, wrap, decodeItems_map_itemOf]

theorem skipWs_cons (c : Char) (t : Str) (h : isWs c = false) : skipWs (c :: t) = c :: t := by
  simp [skipWs, h]

theorem skipWs_ws (c : Char) (t : Str) (h : isWs c = true) : skipWs (c :: t) = skipWs t := by
  simp [skipWs, h]

theorem skipWs_encodeString (k t : Str) : skipWs (encodeString k ++ t) = encodeString k ++ t := by
  unfold encodeString
  rw [List.cons_append, skipWs_cons _ _ (by decide)]

theorem parseValue_string (fuel : Nat) (s tail : Str) :
    parseValue (fuel + 1) (encodeString s ++ tail) = some (.string s, tail) := by
  rw [parseValue, skipWs_encodeString]
  unfold encodeString
  simp only [List.cons_append, List.append_assoc, List.singleton_append, if_true]
  rw [parseString_encode]
  rfl

theorem parseMembers_last (pv : Str → Option (JSON × Str)) (n : Nat) (k vt rest : Str)
    (v : JSON) (h : pv vt = some (v, '\x7d' :: rest)) :
    parseMembers pv (n + 1) (encodeString k ++ ':' :: vt) = some ([(k, v)], rest) := by
  rw [parseMembers, skipWs_encodeString]
  unfold encodeString
  simp only [List.cons_append, List.append_assoc, List.singleton_append, if_true]
  rw [parseString_encode]
  simp only [List.nil_append]
  rw [skipWs_cons _ _ (by decide)]
  simp only [if_true, h]
  rw [skipWs_cons _ _ (by decide)]
  simp

theorem parseMembers_more (pv : Str → Option (JSON × Str)) (n : Nat) (k vt rest : Str)
    (v : JSON) (h : pv vt = some (v, ',' :: rest)) :
    parseMembers pv (n + 1) (encodeString k ++ ':' :: vt) =
      pushFront (k, v) (parseMembers pv n rest) := by
  rw [parseMembers, skipWs_encodeString]
  unfold encodeString
  simp only [List.cons_append, List.append_assoc, List.singleton_append, if_true]
  rw [parseString_encode]
  simp only [List.nil_append]
  rw [skipWs_cons _ _ (by decide)]
  simp only [if_true, h]
  rw [skipWs_cons _ _ (by decide)]
  simp

theorem Marshal_append (e : LogEntry) (tail : Str) :
    Marshal e ++ tail =
      '\x7b' :: (encodeString "date".toList ++ ':' :: (encodeString e.Date ++
        ',' :: (encodeString "time".toList ++ ':' :: (encodeString e.Time ++
        ',' :: (encodeString "keyword".toList ++ ':' :: (encodeString e.Keyword ++
        ',' :: (encodeString "message".toList ++ ':' :: (encodeString e.Message ++
        '\x7d' :: tail)))))))) := by
  simp [Marshal]

theorem parseMembers_Marshal (fuel n : Nat) (e : LogEntry) (tail : Str) :
    parseMembers (parseValue (fuel + 1)) (n + 4)
      (encodeString "date".toList ++ ':' :: (encodeString e.Date ++
        ',' :: (encodeString "time".toList ++ ':' :: (encodeString e.Time ++
        ',' :: (encodeString "keyword".toList ++ ':' :: (encodeString e.Keyword ++
        ',' :: (encodeString "message".toList ++ ':' :: (encodeString e.Message ++
        '\x7d' :: tail)))))))) =
      some ([("date".toList, .string e.Date), ("time".toList, .string e.Time),
        ("keyword".toList, .string e.Keyword), ("message".toList, .string e.Message)], tail) := by
  rw [parseMembers_more _ (n + 3) _ _ _ _ (parseValue_string fuel _ _),
    parseMembers_more _ (n + 2) _ _ _ _ (parseValue_string fuel _ _),
    parseMembers_more _ (n + 1) _ _ _ _ (parseValue_string fuel _ _),
    parseMembers_last _ n _ _ _ _ (parseValue_string fuel _ _)]
  rfl

theorem parseValue_Marshal (fuel : Nat) (e : LogEntry) (tail : Str) :
    parseValue (fuel + 2) (Marshal e ++ tail) = some (e.toJSON, tail) := by
  rw [Marshal_append, parseValue, skipWs_cons _ _ (by decide)]
  simp only [Char.reduceEq, if_false, if_true]
  rw [skipWs_encodeString]
  generalize hr : (encodeString "date".toList ++ ':' :: (encodeString e.Date ++
        ',' :: (encodeString "time".toList ++ ':' :: (encodeString e.Time ++
        ',' :: (encodeString "keyword".toList ++ ':' :: (encodeString e.Keyword ++
        ',' :: (encodeString "message".toList ++ ':' :: (encodeString e.Message ++
        '\x7d' :: tail)))))))) = r
  have hlen : ∃ n, r.length + 1 = n + 4 := by
    refine ⟨r.length - 3, ?_⟩
    have : 3 ≤ r.length := by
      rw [← hr]
      simp [encodeString]
      omega
    omega
  obtain ⟨n, hn⟩ := hlen
  have hhead : ∃ x, r = '\x22' :: x := by
    rw [← hr]
    exact ⟨_, rfl⟩
  obtain ⟨x, hx⟩ := hhead
  rw [hn]
  have hm := parseMembers_Marshal fuel n e tail
  rw [hr] at hm
  rw [hm]
  rw [hx]
  simp [wrap, LogEntry.toJSON]

theorem parseValue_ws (fuel : Nat) (c : Char) (t : Str) (h : isWs c = true) :
    parseValue fuel (c :: t) = parseValue fuel t := by
  cases fuel with
  | zero => simp [parseValue]
  | succ n => rw [parseValue, parseValue, skipWs_ws c t h]

theorem parseElems_ws (fuel n : Nat) (c : Char) (t : Str) (h : isWs c = true) :
    parseElems (parseValue fuel) n (c :: t) = parseElems (parseValue fuel) n t := by
  cases n with
  | zero => simp [parseElems]
  | succ n => rw [parseElems, parseElems, parseValue_ws fuel c t h]

theorem Marshal_head (e : LogEntry) (tail : Str) :
    ∃ x, Marshal e ++ tail = '\x7b' :: x := ⟨_, Marshal_append e tail⟩

theorem parseElems_records (fuel : Nat) (es : List LogEntry) (e : LogEntry) (n : Nat)
    (tail : Str) (hn : es.length ≤ n) :
    parseElems (parseValue (fuel + 2)) (n + 1)
      (' ' :: ' ' :: Marshal e ++
        ((es.map fun x => ',' :: '\n' :: ' ' :: ' ' :: Marshal x).flatten ++
          '\n' :: ']' :: tail)) =
      some ((e :: es).map LogEntry.toJSON, tail) := by
  induction es generalizing e n with
  | nil =>
    rw [parseElems]
    simp only [List.cons_append, List.map_nil, List.flatten_nil, List.nil_append]
    rw [parseValue_ws _ _ _ (by decide), parseValue_ws _ _ _ (by decide), parseValue_Marshal]
    simp only
    rw [skipWs_ws _ _ (by decide), skipWs_cons _ _ (by decide)]
    simp
  | cons e2 es ih =>
    obtain ⟨m, rfl⟩ : ∃ m, n = m + 1 := ⟨n - 1, by simp at hn; omega⟩
    rw [parseElems]
    simp only [List.cons_append, List.map_cons, List.flatten_cons, List.nil_append,
      List.append_assoc]
    rw [parseValue_ws _ _ _ (by decide), parseValue_ws _ _ _ (by decide), parseValue_Marshal]
    simp only
    rw [skipWs_cons _ _ (by decide)]
    simp only [if_true]
    rw [parseElems_ws _ _ _ _ (by decide)]
    have := ih e2 m (by simp at hn; omega)
    simp only [List.cons_append] at this
    rw [this]
    rfl


theorem records_length_le (es : List LogEntry) :
    es.length ≤ ((es.map fun x => ',' :: '\n' :: ' ' :: ' ' :: Marshal x).flatten).length := by
  induction es with
  | nil => simp
  | cons e es ih =>
    simp only [List.map_cons, List.flatten_cons, List.length_append, List.length_cons]
    omega

theorem jsonText_cons (e : LogEntry) (es : List LogEntry) :
    jsonText (e :: es) = '[' :: '\n' :: ' ' :: ' ' :: Marshal e ++
      ((es.map fun x => ',' :: '\n' :: ' ' :: ' ' :: Marshal x).flatten ++
        '\n' :: ']' :: ['\n']) := by
  unfold jsonText
  rw [List.map_cons, intercalate_cons_eq]
  simp [List.map_map, Function.comp_def]

theorem parseJSON_jsonText (es : List LogEntry) :
    parseJSON (jsonText es) = some (.array (es.map LogEntry.toJSON)) := by
  cases es with
  | nil => rfl
  | cons e es =>
    unfold parseJSON
    rw [jsonText_cons]
    generalize hr : (es.map fun x => ',' :: '\n' :: ' ' :: ' ' :: Marshal x).flatten = body
    have hb : es.length ≤ body.length := by rw [← hr]; exact records_length_le es
    obtain ⟨x, hx⟩ := Marshal_head e (body ++ '\n' :: ']' :: ['\n'])
    have hlen : ∃ f, ('[' :: '\n' :: ' ' :: ' ' :: Marshal e ++
        (body ++ '\n' :: ']' :: ['\n'])).length + 1 = f + 2 + 1 := by
      refine ⟨(Marshal e ++ (body ++ '\n' :: ']' :: ['\n'])).length + 2, ?_⟩
      simp only [List.cons_append, List.length_cons]
    obtain ⟨f, hf⟩ := hlen
    rw [hf, parseValue, List.cons_append, skipWs_cons _ _ (by decide)]
    simp only [Char.reduceEq, if_false, if_true, List.cons_append]
    rw [skipWs_ws _ _ (by decide), skipWs_ws _ _ (by decide), skipWs_ws _ _ (by decide), hx,
      skipWs_cons _ _ (by decide)]
    simp only [Char.reduceEq, if_false]
    rw [← hx, parseElems_ws _ _ _ _ (by decide)]
    have hp := parseElems_records f es e
      (('\n' :: ' ' :: ' ' :: (Marshal e ++ (body ++ ['\n', ']', '\n']))).length) ['\n']
      (by simp only [List.length_cons, List.length_append]; omega)
    rw [hr] at hp
    simp only [List.cons_append, List.length_cons] at hp ⊢
    rw [hp]
    simp [wrap, skipWs, isWs]

theorem linesAux_no_newline (cur tail : Str) (h : '\n' ∉ tail) : linesAux cur tail = [] := by
  induction tail generalizing cur with
  | nil => rfl
  | cons c t ih =>
    have hc : c ≠ '\n' := fun e => h (by simp [e])
    have ht : '\n' ∉ t := fun e => h (List.mem_cons_of_mem _ e)
    simp only [linesAux, hc, if_false]
    exact ih _ ht

theorem linesAux_append (cur body tail : Str) (h : '\n' ∉ tail) :
    linesAux cur (body ++ tail) = linesAux cur body := by
  induction body generalizing cur with
  | nil => simpa [linesAux] using linesAux_no_newline cur tail h
  | cons c b ih =>
    by_cases hc : c = '\n'
    · rw [List.cons_append, linesAux, linesAux, if_pos hc, if_pos hc, ih]
    · rw [List.cons_append, linesAux, linesAux, if_neg hc, if_neg hc, ih]

theorem completeLines_append (body tail : Str) (h : '\n' ∉ tail) :
    completeLines (body ++ tail) = completeLines body :=
  linesAux_append [] body tail h

theorem splitDelim_line (s l r : Str) (h : splitDelim '\n' s = some (l, r)) :
    ∃ b, l = b ++ ['\n'] ∧ '\n' ∉ b := by
  induction s generalizing l r with
  | nil => simp [splitDelim] at h
  | cons c s ih =>
    by_cases hc : c = '\n'
    · simp [splitDelim, hc] at h
      exact ⟨[], by simp [h.1.symm]⟩
    · simp only [splitDelim, hc, if_false] at h
      cases h2 : splitDelim '\n' s with
      | none => simp [h2] at h
      | some p =>
        obtain ⟨l2, r2⟩ := p
        simp [h2] at h
        obtain ⟨rfl, rfl⟩ := h
        obtain ⟨b, hb, hn⟩ := ih l2 r2 h2
        refine ⟨c :: b, by simp [hb], ?_⟩
        intro hm
        rcases List.mem_cons.1 hm with e | e
        · exact hc e.symm
        · exact hn e

theorem splitDelim_none (s : Str) (h : splitDelim '\n' s = none) : '\n' ∉ s := by
  induction s with
  | nil => simp
  | cons c s ih =>
    by_cases hc : c = '\n'
    · simp [splitDelim, hc] at h
    · simp only [splitDelim, hc, if_false] at h
      cases h2 : splitDelim '\n' s with
      | none =>
        intro hm
        rcases List.mem_cons.1 hm with e | e
        · exact hc e.symm
        · exact ih h2 e
      | some p => obtain ⟨l2, r2⟩ := p; simp [h2] at h

theorem completeLines_spec_aux (n : Nat) (s : Str) (hn : s.length ≤ n) :
    (∃ tail, s = (completeLines s).flatten ++ tail ∧ '\n' ∉ tail) ∧
      ∀ l ∈ completeLines s, ∃ b, l = b ++ ['\n'] ∧ '\n' ∉ b := by
  induction n generalizing s with
  | zero =>
    have hs : s = [] := List.length_eq_zero.1 (Nat.le_zero.1 hn)
    subst hs
    exact ⟨⟨[], by simp [completeLines, linesAux]⟩, by simp [completeLines, linesAux]⟩
  | succ n ih =>
    rw [completeLines_eq]
    cases hs : splitDelim '\n' s with
    | none =>
      simp only [List.flatten_nil, List.nil_append, List.not_mem_nil, false_implies,
        implies_true, and_true]
      exact ⟨s, rfl, splitDelim_none s hs⟩
    | some p =>
      obtain ⟨l, r⟩ := p
      obtain ⟨hlen, hsplit⟩ := splitDelim_length _ _ _ _ hs
      obtain ⟨⟨tail, ht, hnt⟩, hall⟩ := ih r (by omega)
      simp only [List.flatten_cons, List.mem_cons]
      constructor
      · refine ⟨tail, ?_, hnt⟩
        rw [List.append_assoc, ← ht]
        exact hsplit
      · intro x hx
        rcases hx with rfl | hx
        · exact splitDelim_line s x r hs
        · exact hall x hx

theorem completeLines_spec (s : Str) :
    (∃ tail, s = (completeLines s).flatten ++ tail ∧ '\n' ∉ tail) ∧
      ∀ l ∈ completeLines s, ∃ b, l = b ++ ['\n'] ∧ '\n' ∉ b :=
  completeLines_spec_aux s.length s (Nat.le_refl _)

theorem hexDigit_printable (n : Nat) : 0x20 ≤ (hexDigit n).toNat := by
  have key : ∀ m, m < 16 → 0x20 ≤ (hexDigit m).toNat := by decide
  have h := key (n % 16) (Nat.mod_lt _ (by decide))
  unfold hexDigit at h ⊢
  rw [Nat.mod_mod] at h
  exact h

theorem escapeRune_printable (c x : Char) (hx : x ∈ escapeRune c) : 0x20 ≤ x.toNat := by
  have h1 := hexDigit_printable (c.toNat / 16)
  have h2 := hexDigit_printable c.toNat
  unfold escapeRune at hx
  simp only at hx
  split_ifs at hx with a1 a2 a3 a4 a5 a6 a7 a8 a9 <;>
    simp only [List.mem_cons, List.mem_singleton, List.not_mem_nil, or_false] at hx
  · rw [hx]; exact a2.1
  · rcases hx with rfl | rfl
    · decide
    · omega
  all_goals
    first
    | (rcases hx with rfl | rfl | rfl | rfl | rfl | rfl
       all_goals first | decide | assumption)
    | (rw [hx]; omega)

theorem encodeString_printable (s : Str) (x : Char) (hx : x ∈ encodeString s) :
    0x20 ≤ x.toNat := by
  unfold encodeString at hx
  simp only [List.mem_cons, List.mem_append, List.mem_flatMap, List.mem_singleton,
    List.not_mem_nil, or_false] at hx
  rcases hx with rfl | ⟨c, _, hc⟩ | rfl
  · decide
  · exact escapeRune_printable c x hc
  · decide

theorem Marshal_printable (e : LogEntry) (x : Char) (hx : x ∈ Marshal e) : 0x20 ≤ x.toNat := by
  have hx2 : x ∈ Marshal e ++ [] := by simpa using hx
  rw [Marshal_append] at hx2
  simp only [List.mem_cons, List.mem_append, List.not_mem_nil, or_false] at hx2
  have p := fun s h => encodeString_printable s x h
  rcases hx2 with rfl | h | rfl | h | rfl | h | rfl | h | rfl | h | rfl | h | rfl | h | rfl | h | rfl
  all_goals first | decide | exact p _ h

theorem Marshal_single_line (e : LogEntry) : '\n' ∉ Marshal e := by
  intro h
  have := Marshal_printable e _ h
  revert this
  decide

theorem toNat_ofNat_ascii (k : Nat) (h : k < 128) : (Char.ofNat k).toNat = k := by
  have key : ∀ m, m < 128 → (Char.ofNat m).toNat = m := by decide
  exact key k h

theorem toUpperRune_toLower (c : Char) : toUpperRune (Char.toLower c) = toUpperRune c := by
  unfold Char.toLower
  simp only [ge_iff_le]
  by_cases h : 65 ≤ c.toNat ∧ c.toNat ≤ 90
  · rw [if_pos h]
    have e := toNat_ofNat_ascii (c.toNat + 32) (by omega)
    unfold toUpperRune
    have h1 : 97 ≤ (Char.ofNat (c.toNat + 32)).toNat ∧ (Char.ofNat (c.toNat + 32)).toNat ≤ 122 := by
      rw [e]; omega
    have h2 : ¬ (97 ≤ c.toNat ∧ c.toNat ≤ 122) := by omega
    have h3 : ¬ c.toNat = 0x131 := by omega
    have h4 : ¬ c.toNat = 0x17F := by omega
    rw [if_pos h1, if_neg h2, if_neg h3, if_neg h4, e, Nat.add_sub_cancel, Char.ofNat_toNat]
  · rw [if_neg h]

theorem ToUpper_map_toLower (s : Str) : ToUpper (s.map Char.toLower) = ToUpper s := by
  unfold ToUpper
  rw [List.map_map]
  congr 1
  funext c
  exact toUpperRune_toLower c

theorem levelColor_fold (a b : Str) (h : a.map Char.toLower = b.map Char.toLower) :
    levelColor a = levelColor b := by
  have : ToUpper a = ToUpper b := by
    rw [← ToUpper_map_toLower a, ← ToUpper_map_toLower b, h]
  unfold levelColor
  rw [this]

theorem Format_calendar (t : Instant) (h : t.calendar) :
    Format t = formatDate t ++ ' ' :: formatTime t := by
  obtain ⟨h1, h2, h3, h4, h5, h6, h7, h8⟩ := h
  unfold Format appendInt formatDate formatTime
  have a1 : t.year < 10000 := by omega
  have a2 : t.month < 100 := by omega
  have a3 : t.day < 100 := by omega
  have a4 : t.hour < 100 := by omega
  have a5 : t.minute < 100 := by omega
  have a6 : t.second < 100 := by omega
  simp [a1, a2, a3, a4, a5, a6]

theorem record_calendar (t : Instant) (s : Str) (h : t.calendar) :
    (record t s).Date = formatDate t ∧ (record t s).Time = formatTime t := by
  unfold record
  rw [Format_calendar t h]
  constructor <;> rfl

theorem coloredLine_ne_nil (s : Str) : coloredLine s ≠ [] := by
  unfold coloredLine
  exact List.cons_ne_nil _ _

theorem RunSpec_dual_returns (lf : LogFilter) (env : Env) (out : List Out) (a j : Option Str)
    (hmode : lf.ServerAPI = true) (h : RunSpec lf env = .returned none out a j) :
    ∃ r prior old, env.logFile = some r ∧ env.apiResponse = some prior ∧
      env.jsonFile = some old ∧
      (∀ x ∈ matching lf (completeLines r.pending), wellFormed x) ∧
      out = (matching lf (completeLines r.pending)).flatMap coloredLine ∧
      a = some (prior ++ (matching lf (completeLines r.pending)).flatten) ∧
      j = some (jsonText (recordsFrom env.now 0 (matching lf (completeLines r.pending)))) := by
  unfold RunSpec at h
  cases hr : env.logFile with
  | none => simp [hr] at h
  | some r =>
    cases ha : env.apiResponse with
    | none => simp [hr, hmode, ha] at h
    | some prior =>
      cases hj : env.jsonFile with
      | none => simp [hr, hmode, ha, hj] at h
      | some old =>
        simp only [hr, hmode, ha, hj, if_true] at h
        by_cases hall : ∀ x ∈ matching lf (completeLines r.pending), wellFormed x
        · rw [if_pos hall] at h
          simp only [Outcome.returned.injEq, true_and] at h
          exact ⟨r, prior, old, rfl, rfl, rfl, hall, h.1.symm, h.2.1.symm, h.2.2.symm⟩
        · rw [if_neg hall] at h
          exact Outcome.noConfusion h

theorem RunSpec_dual_of_wellFormed (lf : LogFilter) (env : Env) (r : Reader) (prior old : Str)
    (hmode : lf.ServerAPI = true) (hr : env.logFile = some r)
    (ha : env.apiResponse = some prior) (hj : env.jsonFile = some old)
    (hall : ∀ x ∈ matching lf (completeLines r.pending), wellFormed x) :
    RunSpec lf env = .returned none ((matching lf (completeLines r.pending)).flatMap coloredLine)
      (some (prior ++ (matching lf (completeLines r.pending)).flatten))
      (some (jsonText (recordsFrom env.now 0 (matching lf (completeLines r.pending))))) := by
  unfold RunSpec
  simp only [hr, hmode, ha, hj, if_true, if_pos hall]

theorem matching_lines (lf : LogFilter) (s : Str) (l : Str)
    (h : l ∈ matching lf (completeLines s)) : ∃ b, l = b ++ ['\n'] ∧ '\n' ∉ b := by
  unfold matching at h
  exact (completeLines_spec s).2 l (List.mem_filter.1 h).1

theorem recordsFrom_length (now : Nat → Instant) (k : Nat) (ms : List Str) :
    (recordsFrom now k ms).length = ms.length := by
  induction ms generalizing k with
  | nil => rfl
  | cons s ms ih => simp [recordsFrom, ih]

theorem recordsFrom_getElem (now : Nat → Instant) (k : Nat) (ms : List Str) (i : Nat) :
    (recordsFrom now k ms)[i]? = (ms[i]?).map fun s => record (now (k + i)) s := by
  induction ms generalizing k i with
  | nil => simp [recordsFrom]
  | cons s ms ih =>
    cases i with
    | zero => simp [recordsFrom]
    | succ i =>
      simp only [recordsFrom, List.getElem?_cons_succ, ih]
      have : k + 1 + i = k + (i + 1) := by omega
      rw [this]

theorem parseJSON_Marshal (e : LogEntry) : parseJSON (Marshal e) = some e.toJSON := by
  unfold parseJSON
  obtain ⟨x, hx⟩ := Marshal_head e []
  rw [List.append_nil] at hx
  have hlen : (Marshal e).length + 1 = (Marshal e).length - 1 + 2 := by
    rw [hx]; simp
  have h := parseValue_Marshal ((Marshal e).length - 1) e []
  rw [List.append_nil] at h
  rw [hlen, h]
  rfl

theorem RunSpec_panics_iff (lf : LogFilter) (env : Env) (r : Reader)
    (hr : env.logFile = some r)
    (hs : lf.ServerAPI = true → env.apiResponse ≠ none ∧ env.jsonFile ≠ none) :
    (∃ out, RunSpec lf env = .panicked out) ↔
      ¬ ∀ x ∈ matching lf (completeLines r.pending), wellFormed x := by
  unfold RunSpec
  simp only [hr]
  cases hm : lf.ServerAPI with
  | false =>
    simp only [Bool.false_eq_true, if_false]
    by_cases hall : ∀ x ∈ matching lf (completeLines r.pending), wellFormed x
    · rw [if_pos hall]
      constructor
      · rintro ⟨out, h⟩
        exact Outcome.noConfusion h
      · intro h
        exact absurd hall h
    · rw [if_neg hall]
      exact ⟨fun _ => hall, fun _ => ⟨_, rfl⟩⟩
  | true =>
    obtain ⟨h1, h2⟩ := hs hm
    obtain ⟨prior, hp⟩ := Option.ne_none_iff_exists'.1 h1
    obtain ⟨old, ho⟩ := Option.ne_none_iff_exists'.1 h2
    simp only [hp, ho, if_true]
    by_cases hall : ∀ x ∈ matching lf (completeLines r.pending), wellFormed x
    · rw [if_pos hall]
      constructor
      · rintro ⟨out, h⟩
        exact Outcome.noConfusion h
      · intro h
        exact absurd hall h
    · rw [if_neg hall]
      exact ⟨fun _ => hall, fun _ => ⟨_, rfl⟩⟩

theorem RunSpec_error_iff (lf : LogFilter) (env : Env) :
    (∃ e out a j, RunSpec lf env = .returned (some e) out a j) ↔
      (env.logFile = none ∨
        (lf.ServerAPI = true ∧ (env.apiResponse = none ∨ env.jsonFile = none))) := by
  unfold RunSpec
  cases hr : env.logFile with
  | none => simp
  | some r =>
    cases hm : lf.ServerAPI with
    | false =>
      simp only [Bool.false_eq_true, if_false, false_and, or_false, reduceCtorEq, iff_false]
      rintro ⟨e, out, a, j, h⟩
      split_ifs at h
      all_goals simp at h
    | true =>
      cases ha : env.apiResponse with
      | none => simp
      | some prior =>
        cases hj : env.jsonFile with
        | none => simp
        | some old =>
          simp only [if_true, reduceCtorEq, or_self, and_false, iff_false]
          rintro ⟨e, out, a, j, h⟩
          split_ifs at h
          all_goals simp at h

theorem RunSpec_error_effect (lf : LogFilter) (env : Env) (e : RunError) (out : List Out)
    (a j : Option Str) (h : RunSpec lf env = .returned (some e) out a j) :
    out = [] ∧ a = env.apiResponse ∧ j = env.jsonFile := by
  unfold RunSpec at h
  cases hr : env.logFile with
  | none =>
    simp only [hr, Outcome.returned.injEq] at h
    exact ⟨h.2.1.symm, h.2.2.1.symm, h.2.2.2.symm⟩
  | some r =>
    cases hm : lf.ServerAPI with
    | false =>
      simp only [hr, hm, Bool.false_eq_true, if_false] at h
      split_ifs at h
      all_goals simp at h
    | true =>
      cases ha : env.apiResponse with
      | none =>
        simp only [hr, hm, ha, if_true, Outcome.returned.injEq] at h
        exact ⟨h.2.1.symm, h.2.2.1.symm, by rw [← h.2.2.2]⟩
      | some prior =>
        cases hj : env.jsonFile with
        | none =>
          simp only [hr, hm, ha, hj, if_true, Outcome.returned.injEq] at h
          exact ⟨h.2.1.symm, h.2.2.1.symm, h.2.2.2.symm⟩
        | some old =>
          simp only [hr, hm, ha, hj, if_true] at h
          split_ifs at h
          all_goals simp at h

theorem matching_flatten_length_pos (lf : LogFilter) (s : Str)
    (h : matching lf (completeLines s) ≠ []) :
    0 < ((matching lf (completeLines s)).flatten).length := by
  obtain ⟨l, ls, hl⟩ := List.exists_cons_of_ne_nil h
  obtain ⟨b, hb, _⟩ := matching_lines lf s l (by rw [hl]; exact List.mem_cons_self _ _)
  rw [hl, List.flatten_cons, List.length_append, hb]
  simp

theorem matching_wellFormed (lf : LogFilter) (ls : List Str)
    (hall : ∀ s ∈ ls, Matches lf s → 3 ≤ (Fields s).length) :
    ∀ x ∈ matching lf ls, wellFormed x := by
  intro x hx
  unfold matching at hx
  have h := List.mem_filter.1 hx
  exact hall x h.1 (of_decide_eq_true h.2)

theorem Run_dual_of_fields (lf : LogFilter) (env : Env) (r : Reader) (P Q : Str)
    (hmode : lf.ServerAPI = true) (hr : env.logFile = some r)
    (hP : env.apiResponse = some P) (hQ : env.jsonFile = some Q)
    (hall : ∀ s ∈ completeLines r.pending, Matches lf s → 3 ≤ (Fields s).length) :
    Run lf env = some (Outcome.returned none
      ((matching lf (completeLines r.pending)).flatMap coloredLine)
      (some (P ++ (matching lf (completeLines r.pending)).flatten))
      (some (jsonText (recordsFrom env.now 0 (matching lf (completeLines r.pending)))))) := by
  rw [Run_eq, RunSpec_dual_of_wellFormed lf env r P Q hmode hr hP hQ
    (matching_wellFormed lf _ hall)]

/-! ## The claims -/

set_option maxRecDepth 100000

/-- C1: in the print-only loop and in the dual-sink loop alike, a line `s`
is treated as matching (displayed, and in dual-sink mode persisted) exactly
when the level filter is empty or occurs in `s` and the keyword filter is
empty or occurs in `s`; otherwise the pass leaves the state as it was.  With
both filters empty every line matches; a non-empty level filter that does not
occur in `s` excludes `s` whatever the keyword filter is.  At the level of
`Run`: what is displayed (and persisted) is computed from exactly the lines
of the file that satisfy this predicate. -/
theorem C1_line_matches_iff_filters_occur (lf : LogFilter) (s : Str) :
    (Matches lf s ↔ (lf.LogLevel = [] ∨ lf.LogLevel <:+: s) ∧
        (lf.CustomKeyword = [] ∨ lf.CustomKeyword <:+: s)) ∧
    (∀ out, printStep lf out s =
        if Matches lf s then
          (if wellFormed s then Scan.running (out ++ coloredLine s) else Scan.panicked out)
        else Scan.running out) ∧
    (∀ out, printStep lf out s ≠ Scan.running out ↔ Matches lf s) ∧
    (∀ now st, dualStep lf now st s =
        if Matches lf s then
          (if wellFormed s then
            Scan.running
              { stdout := st.stdout ++ coloredLine s
                apiResponseWriter := st.apiResponseWriter ++ s
                jsonWriter := st.jsonWriter ++ ((if st.firstEntry then [] else [',', '\n']) ++
                  ([' ', ' '] ++ Marshal (record (now st.ticks) s)))
                firstEntry := false
                ticks := st.ticks + 1 }
          else Scan.panicked st.stdout)
        else Scan.running st) ∧
    (∀ now st, dualStep lf now st s ≠ Scan.running st ↔ Matches lf s) ∧
    (lf.LogLevel = [] → lf.CustomKeyword = [] → Matches lf s) ∧
    (lf.LogLevel ≠ [] → ¬ lf.LogLevel <:+: s → ¬ Matches lf s) ∧
    (∀ env r, env.logFile = some r → lf.ServerAPI = false →
      (∀ x ∈ matching lf (completeLines r.pending), wellFormed x) →
      Run lf env = some (Outcome.returned none
        ((matching lf (completeLines r.pending)).flatMap coloredLine)
        env.apiResponse env.jsonFile)) ∧
    (∀ env r prior old, env.logFile = some r → lf.ServerAPI = true →
      env.apiResponse = some prior → env.jsonFile = some old →
      (∀ x ∈ matching lf (completeLines r.pending), wellFormed x) →
      Run lf env = some (Outcome.returned none
        ((matching lf (completeLines r.pending)).flatMap coloredLine)
        (some (prior ++ (matching lf (completeLines r.pending)).flatten))
        (some (jsonText (recordsFrom env.now 0 (matching lf (completeLines r.pending))))))) ∧
    (∀ ls x, x ∈ matching lf ls ↔ x ∈ ls ∧ Matches lf x) := by
  refine ⟨Iff.rfl, fun out => printStep_eq lf out s, ?_, fun now st => dualStep_eq lf now st s,
    ?_, ?_, ?_, ?_, ?_, ?_⟩
  · intro out
    rw [printStep_eq]
    by_cases hm : Matches lf s
    · refine ⟨fun _ => hm, fun _ => ?_⟩
      rw [if_pos hm]
      by_cases hw : wellFormed s
      · rw [if_pos hw]
        intro h
        exact coloredLine_ne_nil s (List.append_right_eq_self.1 (Scan.running.inj h))
      · rw [if_neg hw]
        exact fun h => Scan.noConfusion h
    · simp [hm]
  · intro now st
    rw [dualStep_eq]
    by_cases hm : Matches lf s
    · refine ⟨fun _ => hm, fun _ => ?_⟩
      rw [if_pos hm]
      by_cases hw : wellFormed s
      · rw [if_pos hw]
        intro h
        have h2 := congrArg DualState.ticks (Scan.running.inj h)
        simp at h2
      · rw [if_neg hw]
        exact fun h => Scan.noConfusion h
    · simp [hm]
  · intro h1 h2
    exact ⟨Or.inl h1, Or.inl h2⟩
  · intro h1 h2 hm
    rcases hm.1 with h | h
    · exact h1 h
    · exact h2 h
  · intro env r hr hmode hall
    rw [Run_eq]
    unfold RunSpec
    simp only [hr, hmode, Bool.false_eq_true, if_false, if_pos hall]
  · intro env r prior old hr hmode ha hj hall
    rw [Run_eq]
    unfold RunSpec
    simp only [hr, hmode, ha, hj, if_true, if_pos hall]
  · intro ls x
    simp [matching]

theorem C1_line_matches_witness :
    printStep levelInfo [] demoLine ≠ Scan.running [] ∧
      printStep levelInfo [] warnLine = Scan.running [] :=
  ⟨((C1_line_matches_iff_filters_occur levelInfo demoLine).2.2.1 []).2 (by decide),
    Decidable.not_not.1
      (mt ((C1_line_matches_iff_filters_occur levelInfo warnLine).2.2.1 []).1 (by decide))⟩

/-- C2: in dual-sink mode, when the log file, the raw sink (with prior
content `P`) and the JSON sink open and every matching line of the log file
has at least three fields, `Run` returns without error and the raw sink then
holds `P` followed by the matching lines of the log file, in input order,
each verbatim with its newline.  Running again over the same log file, on
the sinks as the first run left them, returns without error too and leaves
`P` followed by the matching lines twice. -/
theorem C2_raw_sink_appends_matching_lines (lf : LogFilter) (env : Env) (r : Reader)
    (P Q : Str) (hmode : lf.ServerAPI = true) (hr : env.logFile = some r)
    (hP : env.apiResponse = some P) (hQ : env.jsonFile = some Q)
    (hall : ∀ s ∈ completeLines r.pending, Matches lf s → 3 ≤ (Fields s).length) :
    Run lf env = some (Outcome.returned none
      ((matching lf (completeLines r.pending)).flatMap coloredLine)
      (some (P ++ (matching lf (completeLines r.pending)).flatten))
      (some (jsonText (recordsFrom env.now 0 (matching lf (completeLines r.pending)))))) ∧
    (∀ l, l ∈ matching lf (completeLines r.pending) ↔
      l ∈ completeLines r.pending ∧ Matches lf l) ∧
    (matching lf (completeLines r.pending)).Sublist (completeLines r.pending) ∧
    (∀ l ∈ matching lf (completeLines r.pending), ∃ b, l = b ++ ['\n'] ∧ '\n' ∉ b) ∧
    (∃ rest, r.pending = (completeLines r.pending).flatten ++ rest ∧ '\n' ∉ rest) ∧
    ∀ now2,
      Run lf
          { logFile := env.logFile
            apiResponse := some (P ++ (matching lf (completeLines r.pending)).flatten)
            jsonFile :=
              some (jsonText (recordsFrom env.now 0 (matching lf (completeLines r.pending))))
            now := now2 } =
        some (Outcome.returned none
          ((matching lf (completeLines r.pending)).flatMap coloredLine)
          (some (P ++ (matching lf (completeLines r.pending)).flatten ++
            (matching lf (completeLines r.pending)).flatten))
          (some (jsonText (recordsFrom now2 0 (matching lf (completeLines r.pending)))))) := by
  refine ⟨Run_dual_of_fields lf env r P Q hmode hr hP hQ hall, ?_, List.filter_sublist _,
    fun l hl => matching_lines lf _ l hl, (completeLines_spec r.pending).1, ?_⟩
  · intro l
    simp [matching]
  · intro now2
    exact Run_dual_of_fields lf _ r _ _ hmode hr rfl rfl hall

theorem C2_raw_sink_witness :
    Run demoDual demoEnv = some (Outcome.returned none (coloredLine demoLine)
      (some ('x' :: demoLine)) (some (jsonText [record (demoClock 0) demoLine]))) :=
  (C2_raw_sink_appends_matching_lines demoDual demoEnv ⟨demoLine, .EOF⟩ ['x'] ['y'] rfl rfl
    rfl rfl (by decide)).1.trans (by rfl)

/-- C3: in dual-sink mode, when the three files open and every matching
line of the log file has at least three fields, `Run` returns without error
and the JSON sink then holds an opening bracket and newline, then one record
per matching line in input order (the record of the line at position `i`,
processed at clock reading `i`), each written as two spaces and its JSON
object on a single line, separated by a comma and newline, then newline,
closing bracket, newline.  This text is a valid JSON text; it denotes the
array of the records, whose length is the number of matching lines, and the
empty array when no line matches. -/
theorem C3_json_sink_is_array_of_records (lf : LogFilter) (env : Env) (r : Reader)
    (P Q : Str) (hmode : lf.ServerAPI = true) (hr : env.logFile = some r)
    (hP : env.apiResponse = some P) (hQ : env.jsonFile = some Q)
    (hall : ∀ s ∈ completeLines r.pending, Matches lf s → 3 ≤ (Fields s).length) :
    ∃ es : List LogEntry,
      es.length = (matching lf (completeLines r.pending)).length ∧
      (∀ i, es[i]? =
        ((matching lf (completeLines r.pending))[i]?).map fun s => record (env.now i) s) ∧
      Run lf env = some (Outcome.returned none
        ((matching lf (completeLines r.pending)).flatMap coloredLine)
        (some (P ++ (matching lf (completeLines r.pending)).flatten))
        (some (['[', '\n'] ++
          List.intercalate [',', '\n'] (es.map fun e => ' ' :: ' ' :: Marshal e) ++
          ['\n', ']', '\n']))) ∧
      (∀ e ∈ es, '\n' ∉ Marshal e) ∧
      parseJSON (['[', '\n'] ++
          List.intercalate [',', '\n'] (es.map fun e => ' ' :: ' ' :: Marshal e) ++
          ['\n', ']', '\n']) = some (JSON.array (es.map LogEntry.toJSON)) ∧
      (es.map LogEntry.toJSON).length = (matching lf (completeLines r.pending)).length ∧
      (matching lf (completeLines r.pending) = [] →
        Run lf env = some (Outcome.returned none [] (some P)
          (some ['[', '\n', '\n', ']', '\n'])) ∧
        parseJSON ['[', '\n', '\n', ']', '\n'] = some (JSON.array [])) := by
  have hrun := Run_dual_of_fields lf env r P Q hmode hr hP hQ hall
  refine ⟨recordsFrom env.now 0 (matching lf (completeLines r.pending)),
    recordsFrom_length _ _ _, ?_, hrun, fun e _ => Marshal_single_line e, ?_, ?_, ?_⟩
  · intro i
    rw [recordsFrom_getElem, Nat.zero_add]
  · exact parseJSON_jsonText _
  · rw [List.length_map, recordsFrom_length]
  · intro hnil
    rw [hrun, hnil]
    exact ⟨by simp [recordsFrom, jsonText, List.intercalate], rfl⟩

theorem C3_json_sink_witness :
    ∃ es : List LogEntry, es.length = 1 ∧
      Run demoDual demoEnv = some (Outcome.returned none (coloredLine demoLine)
        (some ('x' :: demoLine))
        (some (['[', '\n'] ++
          List.intercalate [',', '\n'] (es.map fun e => ' ' :: ' ' :: Marshal e) ++
          ['\n', ']', '\n']))) ∧
      parseJSON (['[', '\n'] ++
          List.intercalate [',', '\n'] (es.map fun e => ' ' :: ' ' :: Marshal e) ++
          ['\n', ']', '\n']) = some (JSON.array (es.map LogEntry.toJSON)) :=
  (C3_json_sink_is_array_of_records demoDual demoEnv ⟨demoLine, .EOF⟩ ['x'] ['y'] rfl rfl
    rfl rfl (by decide)).imp fun _ h =>
      ⟨h.1.trans (by rfl), h.2.2.1.trans (by rfl), h.2.2.2.2.1⟩

/-- C4: for a line whose fields are `t0`, `t1`, `t2` and then `rest`,
processed at a calendar reading `t` (four-digit year), `parseLogEntry`
returns a record whose keyword is the third field `t2`, whose message is the
remaining fields joined by single spaces (empty when there are none), whose
date is `t` in the layout YYYY-MM-DD and whose time is `t` in the layout
HH:MM:SS.  Date and time are the same for every other line processed at `t`.
The record serializes to a JSON text denoting an object with the four keys
date, time, keyword, message, in that order. -/
theorem C4_parseLogEntry_record (t : Instant) (line t0 t1 t2 : Str) (rest : List Str)
    (ht : t.calendar) (hf : Fields line = t0 :: t1 :: t2 :: rest) :
    ∃ e : LogEntry, parseLogEntry t line = some e ∧
      e.Keyword = t2 ∧
      e.Message = List.intercalate [' '] rest ∧
      (rest = [] → e.Message = []) ∧
      e.Date = [digit (t.year / 1000), digit (t.year / 100), digit (t.year / 10), digit t.year,
        '-', digit (t.month / 10), digit t.month, '-', digit (t.day / 10), digit t.day] ∧
      e.Time = [digit (t.hour / 10), digit t.hour, ':', digit (t.minute / 10), digit t.minute,
        ':', digit (t.second / 10), digit t.second] ∧
      (∀ line2, 3 ≤ (Fields line2).length →
        ∃ e2 : LogEntry, parseLogEntry t line2 = some e2 ∧ e2.Date = e.Date ∧ e2.Time = e.Time) ∧
      parseJSON (Marshal e) = some (JSON.object
        [("date".toList, JSON.string e.Date), ("time".toList, JSON.string e.Time),
          ("keyword".toList, JSON.string t2),
          ("message".toList, JSON.string (List.intercalate [' '] rest))]) := by
  have hw : wellFormed line := by unfold wellFormed; rw [hf]; simp
  have hd := record_calendar t line ht
  refine ⟨record t line, ?_, ?_, ?_, ?_, hd.1, hd.2, ?_, ?_⟩
  · rw [parseLogEntry_eq, if_pos hw]
  · simp [record, hf]
  · simp [record, hf]
  · intro hr
    simp [record, hf, hr, List.intercalate]
  · intro line2 h2
    have hw2 : wellFormed line2 := h2
    refine ⟨record t line2, ?_, rfl, rfl⟩
    rw [parseLogEntry_eq, if_pos hw2]
  · rw [parseJSON_Marshal]
    simp [LogEntry.toJSON, record, hf]

theorem C4_parseLogEntry_witness :
    ∃ e : LogEntry, parseLogEntry (demoClock 0) exampleLine = some e ∧
      e.Keyword = "INFO".toList ∧ e.Message = "Service started".toList ∧
      e.Date = "2024-01-02".toList ∧ e.Time = "03:04:05".toList :=
  (C4_parseLogEntry_record (demoClock 0) exampleLine "2024-01-01".toList "10:00:00".toList
    "INFO".toList ["Service".toList, "started".toList] (by decide) (by rfl)).imp
    fun _ h => ⟨h.1, h.2.1, h.2.2.1.trans (by rfl), h.2.2.2.2.1.trans (by rfl),
      h.2.2.2.2.2.1.trans (by rfl)⟩

/-- C5: for a line whose fields are `t0`, `t1`, `t2` and then `rest`,
`printColoredLog` writes, in this order: `t0` in bright red, a space, `t1` in
bright black, a space, `t2` in the colour `c`, a space, the remaining fields
joined by single spaces in white, and a newline; `c` is bright red when `t2`
in upper case is WARNING, bright white when it is TRACE, bright green
otherwise.  Two level fields that are equal up to letter case get the same
colour. -/
theorem C5_printColoredLog_writes (line t0 t1 t2 : Str) (rest : List Str)
    (hf : Fields line = t0 :: t1 :: t2 :: rest) :
    printColoredLog line = some
      [Out.colored Attribute.FgHiRed t0, Out.plain [' '],
        Out.colored Attribute.FgHiBlack t1, Out.plain [' '],
        Out.colored (levelColor t2) t2, Out.plain [' '],
        Out.colored Attribute.FgWhite (List.intercalate [' '] rest), Out.plain ['\n']] ∧
    levelColor t2 =
      (if ToUpper t2 = "WARNING".toList then Attribute.FgHiRed
       else if ToUpper t2 = "TRACE".toList then Attribute.FgHiWhite
       else Attribute.FgHiGreen) ∧
    (∀ u : Str, u.map Char.toLower = t2.map Char.toLower → levelColor u = levelColor t2) ∧
    (t2.map Char.toUpper = "WARNING".toList → levelColor t2 = Attribute.FgHiRed) ∧
    (t2.map Char.toUpper = "TRACE".toList → levelColor t2 = Attribute.FgHiWhite) ∧
    levelColor "warning".toList = Attribute.FgHiRed ∧
    levelColor "Warning".toList = Attribute.FgHiRed ∧
    levelColor "trace".toList = Attribute.FgHiWhite ∧
    levelColor "INFO".toList = Attribute.FgHiGreen := by
  have hw : wellFormed line := by unfold wellFormed; rw [hf]; simp
  have hup : ∀ s : Str, (s.map Char.toUpper).map Char.toLower = s.map Char.toLower := by
    intro s
    rw [List.map_map]
    apply List.map_congr_left
    intro c _
    simp only [Function.comp]
    unfold Char.toUpper Char.toLower
    simp only [ge_iff_le]
    by_cases h : 97 ≤ c.toNat ∧ c.toNat ≤ 122
    · have e := toNat_ofNat_ascii (c.toNat - 32) (by omega)
      have h1 : 65 ≤ (Char.ofNat (c.toNat - 32)).toNat ∧ (Char.ofNat (c.toNat - 32)).toNat ≤ 90 := by
        rw [e]; omega
      have h2 : ¬ (65 ≤ c.toNat ∧ c.toNat ≤ 90) := by omega
      rw [if_pos h, if_pos h1, if_neg h2, e]
      have : c.toNat - 32 + 32 = c.toNat := by omega
      rw [this, Char.ofNat_toNat]
    · rw [if_neg h]
  refine ⟨?_, rfl, fun u hu => levelColor_fold u t2 hu, ?_, ?_, by decide, by decide,
    by decide, by decide⟩
  · rw [printColoredLog_eq, if_pos hw]
    simp [coloredLine, hf]
  · intro h
    have := levelColor_fold t2 "WARNING".toList (by rw [← hup t2, h])
    rw [this]
    decide
  · intro h
    have := levelColor_fold t2 "TRACE".toList (by rw [← hup t2, h])
    rw [this]
    decide

theorem C5_printColoredLog_witness :
    printColoredLog demoLine = some
      [Out.colored Attribute.FgHiRed ['d'], Out.plain [' '],
        Out.colored Attribute.FgHiBlack ['t'], Out.plain [' '],
        Out.colored Attribute.FgHiGreen "INFO".toList, Out.plain [' '],
        Out.colored Attribute.FgWhite "up now".toList, Out.plain ['\n']] :=
  (C5_printColoredLog_writes demoLine ['d'] ['t'] "INFO".toList ["up".toList, "now".toList]
    (by rfl)).1.trans (by rfl)

/-- C6: once the log file (and, in dual-sink mode, both sinks) has been
opened, `Run` panics exactly when some line of the file matches the filters
and has fewer than three fields.  A line with fewer than three fields that
does not match leaves the state of either loop as it was.  On a line with
three or more fields neither `printColoredLog` nor `parseLogEntry` goes out
of range; on a line with fewer both do. -/
theorem C6_panics_iff_matching_short_line (lf : LogFilter) (env : Env) (r : Reader)
    (hr : env.logFile = some r)
    (hs : lf.ServerAPI = true → env.apiResponse ≠ none ∧ env.jsonFile ≠ none) :
    ((∃ out, Run lf env = some (Outcome.panicked out)) ↔
      ∃ s ∈ completeLines r.pending, Matches lf s ∧ (Fields s).length < 3) ∧
    (∀ s, (Fields s).length < 3 → ¬ Matches lf s →
      (∀ out, printStep lf out s = Scan.running out) ∧
        ∀ now st, dualStep lf now st s = Scan.running st) ∧
    (∀ s t, 3 ≤ (Fields s).length →
      (printColoredLog s).isSome = true ∧ (parseLogEntry t s).isSome = true) ∧
    (∀ s t, (Fields s).length < 3 → printColoredLog s = none ∧ parseLogEntry t s = none) := by
  refine ⟨?_, ?_, ?_, ?_⟩
  · rw [Run_eq]
    simp only [Option.some.injEq]
    rw [RunSpec_panics_iff lf env r hr hs]
    simp only [matching, List.mem_filter, decide_eq_true_eq, not_forall, wellFormed, not_le]
    constructor
    · rintro ⟨x, ⟨hx, hm⟩, hlt⟩
      exact ⟨x, hx, hm, hlt⟩
    · rintro ⟨x, hx, hm, hlt⟩
      exact ⟨x, ⟨hx, hm⟩, hlt⟩
  · intro s _ hm
    refine ⟨fun out => ?_, fun now st => ?_⟩
    · rw [printStep_eq, if_neg hm]
    · rw [dualStep_eq, if_neg hm]
  · intro s t h3
    have hw : wellFormed s := h3
    rw [printColoredLog_eq, parseLogEntry_eq, if_pos hw, if_pos hw]
    exact ⟨rfl, rfl⟩
  · intro s t h3
    have hw : ¬ wellFormed s := by unfold wellFormed; omega
    rw [printColoredLog_eq, parseLogEntry_eq, if_neg hw, if_neg hw]
    exact ⟨rfl, rfl⟩

theorem C6_onlytwo_tokens_witness :
    Run NewLogFilter shortEnv = some (Outcome.panicked []) ∧
      Run demoDual shortEnv = some (Outcome.panicked []) ∧
      ((∃ out, Run NewLogFilter shortEnv = some (Outcome.panicked out)) ↔
        ∃ s ∈ completeLines "onlytwo tokens\n".toList,
          Matches NewLogFilter s ∧ (Fields s).length < 3) :=
  ⟨by rfl, by rfl,
    (C6_panics_iff_matching_short_line NewLogFilter shortEnv ⟨"onlytwo tokens\n".toList, .EOF⟩
      rfl (fun h => absurd h (by decide))).1⟩

/-- C7: `Run` returns an error exactly when the log file cannot be opened
or, in dual-sink mode, the raw sink cannot be opened or the JSON sink cannot
be created; when it returns an error nothing has been printed and both sinks
are as they were.  `Run` always ends, and when it neither returns an error
nor panics it returns success.  A read fault at the end of the stream gives
the same outcome as end of file. -/
theorem C7_error_iff_open_failure (lf : LogFilter) (env : Env) :
    ((∃ e out a j, Run lf env = some (Outcome.returned (some e) out a j)) ↔
      (env.logFile = none ∨
        (lf.ServerAPI = true ∧ (env.apiResponse = none ∨ env.jsonFile = none)))) ∧
    (∀ e out a j, Run lf env = some (Outcome.returned (some e) out a j) →
      out = [] ∧ a = env.apiResponse ∧ j = env.jsonFile) ∧
    (∃ o, Run lf env = some o) ∧
    ((∀ e out a j, Run lf env ≠ some (Outcome.returned (some e) out a j)) →
      (∀ out, Run lf env ≠ some (Outcome.panicked out)) →
      ∃ out a j, Run lf env = some (Outcome.returned none out a j)) ∧
    (∀ text a j now,
      Run lf ⟨some ⟨text, ReadErr.Fault⟩, a, j, now⟩ =
        Run lf ⟨some ⟨text, ReadErr.EOF⟩, a, j, now⟩) ∧
    (∀ text now, (∀ x ∈ matching lf (completeLines text), wellFormed x) →
      ∃ out a j, Run lf ⟨some ⟨text, ReadErr.Fault⟩, some [], some [], now⟩ =
        some (Outcome.returned none out a j)) := by
  refine ⟨?_, ?_, ⟨_, Run_eq lf env⟩, ?_, ?_, ?_⟩
  · rw [Run_eq]
    simp only [Option.some.injEq]
    exact RunSpec_error_iff lf env
  · intro e out a j h
    rw [Run_eq] at h
    exact RunSpec_error_effect lf env e out a j (Option.some.inj h)
  · intro h1 h2
    rw [Run_eq] at h1 h2 ⊢
    cases ho : RunSpec lf env with
    | panicked out => exact absurd (by rw [ho]) (h2 out)
    | returned err out a j =>
      cases err with
      | none => exact ⟨out, a, j, rfl⟩
      | some e => exact absurd (by rw [ho]) (h1 e out a j)
  · intro text a j now
    rw [Run_eq, Run_eq]
    rfl
  · intro text now hall
    rw [Run_eq]
    unfold RunSpec
    cases hm : lf.ServerAPI with
    | false =>
      simp only [Bool.false_eq_true, if_false, if_pos hall]
      exact ⟨_, _, _, rfl⟩
    | true =>
      simp only [if_true, if_pos hall]
      exact ⟨_, _, _, rfl⟩

theorem C7_error_witness :
    (∃ e out a j, Run demoDual ⟨some ⟨demoLine, .EOF⟩, none, some [], demoClock⟩ =
        some (Outcome.returned (some e) out a j)) ∧
      Run demoDual ⟨some ⟨demoLine, .Fault⟩, some [], some [], demoClock⟩ =
        Run demoDual ⟨some ⟨demoLine, .EOF⟩, some [], some [], demoClock⟩ :=
  ⟨(C7_error_iff_open_failure demoDual
      ⟨some ⟨demoLine, .EOF⟩, none, some [], demoClock⟩).1.2 (Or.inr ⟨rfl, Or.inl rfl⟩),
    (C7_error_iff_open_failure demoDual demoEnv).2.2.2.2.1 demoLine (some []) (some [])
      demoClock⟩

/-- C8 (amended): in dual-sink mode, when every matching line of the log
file has at least three fields, `Run` returns without error and leaves the
same JSON sink content whatever the JSON sink held before (`Q1` or `Q2`):
the text built from the matching lines and the clock readings only.  Running
again over the same log file with the same clock, on the sinks as the first
run left them, returns without error and leaves the JSON sink as it was
after the first run, while the raw sink receives the matching lines once
more; the raw sink is strictly longer after the second run exactly when at
least one line of the log file matches. -/
theorem C8_json_sink_independent_of_prior (lf : LogFilter) (r : Reader) (P Q1 Q2 : Str)
    (now : Nat → Instant) (hmode : lf.ServerAPI = true)
    (hall : ∀ s ∈ completeLines r.pending, Matches lf s → 3 ≤ (Fields s).length) :
    Run lf ⟨some r, some P, some Q1, now⟩ =
      some (Outcome.returned none ((matching lf (completeLines r.pending)).flatMap coloredLine)
        (some (P ++ (matching lf (completeLines r.pending)).flatten))
        (some (jsonText (recordsFrom now 0 (matching lf (completeLines r.pending)))))) ∧
    Run lf ⟨some r, some P, some Q2, now⟩ = Run lf ⟨some r, some P, some Q1, now⟩ ∧
    Run lf ⟨some r, some (P ++ (matching lf (completeLines r.pending)).flatten),
        some (jsonText (recordsFrom now 0 (matching lf (completeLines r.pending)))), now⟩ =
      some (Outcome.returned none ((matching lf (completeLines r.pending)).flatMap coloredLine)
        (some (P ++ (matching lf (completeLines r.pending)).flatten ++
          (matching lf (completeLines r.pending)).flatten))
        (some (jsonText (recordsFrom now 0 (matching lf (completeLines r.pending)))))) ∧
    ((P ++ (matching lf (completeLines r.pending)).flatten).length <
        (P ++ (matching lf (completeLines r.pending)).flatten ++
          (matching lf (completeLines r.pending)).flatten).length ↔
      ∃ s ∈ completeLines r.pending, Matches lf s) := by
  have h1 := Run_dual_of_fields lf ⟨some r, some P, some Q1, now⟩ r P Q1 hmode rfl rfl rfl hall
  have h2 := Run_dual_of_fields lf ⟨some r, some P, some Q2, now⟩ r P Q2 hmode rfl rfl rfl hall
  refine ⟨h1, h2.trans h1.symm, Run_dual_of_fields lf _ r _ _ hmode rfl rfl rfl hall, ?_⟩
  constructor
  · intro hlt
    by_cases hne : matching lf (completeLines r.pending) = []
    · rw [hne] at hlt
      simp at hlt
    · obtain ⟨s, ls, hs⟩ := List.exists_cons_of_ne_nil hne
      have hmem : s ∈ matching lf (completeLines r.pending) := by
        rw [hs]; exact List.mem_cons_self _ _
      unfold matching at hmem
      have h := List.mem_filter.1 hmem
      exact ⟨s, h.1, of_decide_eq_true h.2⟩
  · rintro ⟨s, hs, hm⟩
    have hne : matching lf (completeLines r.pending) ≠ [] := by
      intro h
      have hmem : s ∈ matching lf (completeLines r.pending) := by
        unfold matching
        exact List.mem_filter.2 ⟨hs, decide_eq_true hm⟩
      rw [h] at hmem
      exact List.not_mem_nil _ hmem
    have := matching_flatten_length_pos lf r.pending hne
    simp only [List.length_append]
    omega

theorem C8_json_sink_witness :
    Run demoDual ⟨some ⟨demoLine, .EOF⟩, some ['x'], some ['z', 'z'], demoClock⟩ =
        Run demoDual ⟨some ⟨demoLine, .EOF⟩, some ['x'], some ['y'], demoClock⟩ ∧
      Run demoDual ⟨some ⟨demoLine, .EOF⟩, some ('x' :: demoLine),
          some (jsonText [record (demoClock 0) demoLine]), demoClock⟩ =
        some (Outcome.returned none (coloredLine demoLine)
          (some ('x' :: demoLine ++ demoLine))
          (some (jsonText [record (demoClock 0) demoLine]))) := by
  have h := C8_json_sink_independent_of_prior demoDual ⟨demoLine, .EOF⟩ ['x'] ['y'] ['z', 'z']
    demoClock rfl (by decide)
  exact ⟨h.2.1, h.2.2.1.trans (by rfl)⟩

/-- C8, as stated, fails: with the level filter `INFO` over a log file in
which no line contains `INFO`, both runs return without error and the raw
sink after the second run is what it was after the first: it has not
grown. -/
theorem C8_raw_sink_does_not_grow :
    Run levelInfoDual ⟨some ⟨warnLine, .EOF⟩, some ['x'], some ['y'], demoClock⟩ =
        some (Outcome.returned none [] (some ['x']) (some ['[', '\n', '\n', ']', '\n'])) ∧
      Run levelInfoDual
          ⟨some ⟨warnLine, .EOF⟩, some ['x'], some ['[', '\n', '\n', ']', '\n'], demoClock⟩ =
        some (Outcome.returned none [] (some ['x']) (some ['[', '\n', '\n', ']', '\n'])) ∧
      ¬ (['x'].length < ['x'].length) :=
  ⟨by rfl, by rfl, by decide⟩

/-- C9: with the level filter `INFO`, `Run` displays, and in dual-sink mode
persists, a line whose level field (its third field) is `ERROR`: the filter
is a substring test on the whole line, and `INFO` occurs in the message. -/
theorem C9_level_filter_passes_other_level :
    (Fields errorLine)[2]? = some "ERROR".toList ∧
    levelInfo.LogLevel = "INFO".toList ∧
    Run levelInfo ⟨some ⟨errorLine, .EOF⟩, none, none, demoClock⟩ =
      some (Outcome.returned none
        [Out.colored Attribute.FgHiRed ['d'], Out.plain [' '],
          Out.colored Attribute.FgHiBlack ['t'], Out.plain [' '],
          Out.colored Attribute.FgHiGreen "ERROR".toList, Out.plain [' '],
          Out.colored Attribute.FgWhite "INFO lost".toList, Out.plain ['\n']] none none) ∧
    Run levelInfoDual ⟨some ⟨errorLine, .EOF⟩, some [], some [], demoClock⟩ =
      some (Outcome.returned none (coloredLine errorLine) (some errorLine)
        (some (jsonText [record (demoClock 0) errorLine]))) ∧
    (record (demoClock 0) errorLine).Keyword = "ERROR".toList :=
  ⟨by rfl, by rfl, by rfl, by rfl, by rfl⟩

/-- C10: text after the last newline of the log file is not processed: for a
`tail` without newline, `Run` over `body ++ tail` ends exactly as `Run` over
`body`, in either mode, for all filters, sinks and clocks.  Every text is its
complete lines followed by such a tail.  A log file without any newline gives
no output: in print-only mode `Run` returns with nothing printed and the
sinks untouched; in dual-sink mode it returns with nothing printed, the raw
sink unchanged and the JSON sink holding a text that denotes the empty
array. -/
theorem C10_text_after_last_newline_ignored (lf : LogFilter) (body tail : Str)
    (ending : ReadErr) (a j : Option Str) (now : Nat → Instant) (ht : '\n' ∉ tail) :
    Run lf ⟨some ⟨body ++ tail, ending⟩, a, j, now⟩ =
      Run lf ⟨some ⟨body, ending⟩, a, j, now⟩ ∧
    completeLines (body ++ tail) = completeLines body ∧
    (∀ s : Str, ∃ rest, s = (completeLines s).flatten ++ rest ∧ '\n' ∉ rest) ∧
    (lf.ServerAPI = false →
      Run lf ⟨some ⟨tail, ending⟩, a, j, now⟩ = some (Outcome.returned none [] a j)) ∧
    (lf.ServerAPI = true → ∀ P Q : Str,
      Run lf ⟨some ⟨tail, ending⟩, some P, some Q, now⟩ =
        some (Outcome.returned none [] (some P) (some ['[', '\n', '\n', ']', '\n']))) ∧
    parseJSON ['[', '\n', '\n', ']', '\n'] = some (JSON.array []) := by
  have hl : completeLines (body ++ tail) = completeLines body := completeLines_append body tail ht
  have hn : completeLines tail = [] := by
    have := completeLines_append [] tail ht
    simpa [completeLines, linesAux] using this
  refine ⟨?_, hl, fun s => (completeLines_spec s).1, ?_, ?_, by rfl⟩
  · rw [Run_eq, Run_eq]
    unfold RunSpec
    simp only [hl]
  · intro hm
    rw [Run_eq]
    unfold RunSpec
    simp [hm, hn, matching]
  · intro hm P Q
    rw [Run_eq]
    unfold RunSpec
    simp [hm, hn, matching, jsonText, recordsFrom, List.intercalate]

theorem C10_text_after_last_newline_witness :
    Run demoDual ⟨some ⟨demoLine ++ "d t INFO no newline".toList, .EOF⟩, some ['x'], some ['y'],
        demoClock⟩ =
      some (Outcome.returned none (coloredLine demoLine) (some ('x' :: demoLine))
        (some (jsonText [record (demoClock 0) demoLine]))) :=
  (C10_text_after_last_newline_ignored demoDual demoLine "d t INFO no newline".toList .EOF
    (some ['x']) (some ['y']) demoClock (by decide)).1.trans (by rfl)

end EnhanceLogs
